import Mathlib

/-!
# wlan-drone-grabber: the reassembly pipeline of `main.go`

A shallow embedding of the four stages of `main` (classification of UDP
payloads, grouping by stream ID, per-bucket reassembly, sequencing by
timestamp) together with theorems about them.

Conventions of the embedding

* a Go `byte` is a `Fin 256`; a `[]byte` is a `List Byte`;
* a Go index expression `s[i]` is `idx s i : Option _`, where `none` is the
  run-time panic "index out of range"; indices are `Int` because the source
  computes them by subtraction (`len(s)-2`);
* Go's short-circuit `&&` is `goAnd`;
* what a stage does with one input is an `Outcome`: it panics, it sends
  nothing, or it sends one value on its channel;
* `sort.Slice` belongs to the Go standard library.  It is represented by the
  structure `SortPkg`: a function together with the two facts its
  documentation promises (the result is a rearrangement of the input, and it
  is ordered with respect to `less`).  The documentation states that the sort
  "is not guaranteed to be stable", so no stability fact is part of it.
  What the implementation of Go 1.19 and later does on slices of at most 13
  elements is transcribed as `goSlice`, and `goSort` is the `SortPkg` made of
  it; the theorems stated for every `SortPkg` hold for it in particular.
-/

namespace WlanDroneGrabber

/-! ## Go primitives -/

/-- A Go `byte`. -/
abbrev Byte := Fin 256

/-- Go index expression `s[i]`; `none` is the panic "index out of range". -/
def idx {α : Type} (s : List α) (i : Int) : Option α :=
  if i < 0 then none else s[i.toNat]?

/-- Go slice expression `s[lo:]`; `none` is the panic "slice bounds out of range". -/
def sliceFrom {α : Type} (s : List α) (lo : Nat) : Option (List α) :=
  if lo ≤ s.length then some (s.drop lo) else none

/-- Go's `a && b` on conditions that may panic: `b` is looked at only when `a`
evaluated to `true`. -/
def goAnd (a b : Option Bool) : Option Bool :=
  match a with
  | none => none
  | some false => some false
  | some true => b

/-- The comparison `s[i] == v` of the source. -/
def eqAt (s : List Byte) (i : Int) (v : Byte) : Option Bool :=
  (idx s i).map (fun x => decide (x = v))

/-- The function `slices.IndexFunc` of `golang.org/x/exp/slices`: the first index
whose element satisfies `f`, or `-1`. -/
def IndexFunc {α : Type} (s : List α) (f : α → Bool) : Int :=
  if s.findIdx f < s.length then (s.findIdx f : Int) else -1

/-- The observable part of a Go `time.Time`: whole seconds since the Unix epoch
and the nanoseconds within that second. -/
structure Time where
  sec : Int
  nsec : Nat
deriving DecidableEq, Repr

/-- The method `Time.Unix()`: the timestamp in whole Unix seconds. -/
def Time.Unix (t : Time) : Int := t.sec

/-- What one stage does with one input. -/
inductive Outcome (α : Type) where
  | panic : Outcome α
  | nothing : Outcome α
  | sent : α → Outcome α
deriving DecidableEq, Repr

/-- The requirement `sort.Slice` puts on its `less` argument (that of
`sort.Interface.Less`): a strict ordering that is transitive and whose
negation is transitive. -/
def LessOK {α : Type} (less : α → α → Bool) : Prop :=
  (∀ a, less a a = false) ∧
  (∀ a b c, less a b = true → less b c = true → less a c = true) ∧
  (∀ a b c, less a b = false → less b c = false → less a c = false)

/-- The library function `sort.Slice(x, less)` by its documented contract: the
result is a rearrangement of `x`, and no element is `less` than an earlier one
when `less` is a valid ordering.  Stability is not part of the contract. -/
structure SortPkg where
  Slice : {α : Type} → (α → α → Bool) → List α → List α
  perm : ∀ {α : Type} (less : α → α → Bool) (x : List α), (Slice less x).Perm x
  sorted : ∀ {α : Type} (less : α → α → Bool), LessOK less →
    ∀ x : List α, (Slice less x).Pairwise (fun a b => less b a = false)

/-! ## Data model (main.go, lines 15-36) -/

/-- The struct `StreamPacket`. -/
structure StreamPacket where
  ID : Nat
  ChunkIndex : Byte
  UnknownValue : Byte
  PacketSize : Nat
  Payload : List Byte
  Time : Time
deriving DecidableEq, Repr

/-- The struct `VideoFrame`. -/
structure VideoFrame where
  JpegData : List Byte
  Time : Time
deriving DecidableEq, Repr

/-! ## Stage 1: classification (main.go, lines 56-68) -/

/-- The condition of line 57: `data[0] == 99 && data[1] == 99 && len(data) > 54`. -/
def isStreamPacket (data : List Byte) : Option Bool :=
  goAnd (goAnd (eqAt data 0 99) (eqAt data 1 99)) (some (decide (data.length > 54)))

/-- The `uint32` of line 58:
`uint32(data[8])<<24 | uint32(data[9])<<16 | uint32(data[12])<<8 | uint32(data[13])`. -/
def packID (d8 d9 d12 d13 : Byte) : Nat :=
  ((d8.val <<< 24) % 2 ^ 32 ||| (d9.val <<< 16) % 2 ^ 32 ||| (d12.val <<< 8) % 2 ^ 32
    ||| d13.val) % 2 ^ 32

/-- Lines 56-68: what the classification goroutine does with the UDP payload
`data` of a frame captured at `ts`. -/
def classify (data : List Byte) (ts : Time) : Outcome StreamPacket :=
  match isStreamPacket data with
  | none => .panic
  | some false => .nothing
  | some true =>
    match idx data 8, idx data 9, idx data 12, idx data 13, idx data 48, idx data 50,
        sliceFrom data 54 with
    | some d8, some d9, some d12, some d13, some d48, some d50, some rest =>
      .sent
        { ID := packID d8 d9 d12 d13
          ChunkIndex := d48
          UnknownValue := d50
          PacketSize := data.length
          Payload := rest
          Time := ts }
    | _, _, _, _, _, _, _ => .panic

/-! ## Stage 2: grouping (main.go, lines 74-82) -/

/-- The map `res` of type `map[uint32][]*StreamPacket`, as an association list
with one entry per key. -/
abbrev Buckets := List (Nat × List StreamPacket)

/-- The map read `res[id]` with its `found` flag. -/
def Buckets.get (res : Buckets) (id : Nat) : Option (List StreamPacket) :=
  match res with
  | [] => none
  | (k, v) :: rest => if k = id then some v else Buckets.get rest id

/-- The map write `res[id] = v`. -/
def Buckets.set (res : Buckets) (id : Nat) (v : List StreamPacket) : Buckets :=
  match res with
  | [] => [(id, v)]
  | (k, w) :: rest => if k = id then (k, v) :: rest else (k, w) :: Buckets.set rest id v

/-- The body of the loop of lines 75-82. -/
def groupStep (res : Buckets) (packet : StreamPacket) : Buckets :=
  match res.get packet.ID with
  | some found => res.set packet.ID (found ++ [packet])
  | none => res.set packet.ID [packet]

/-- Lines 74-82: the map built from the records received on `packetsDecoded`. -/
def group (packets : List StreamPacket) : Buckets :=
  packets.foldl groupStep []

/-! ## Stage 3: reassembly (main.go, lines 86-113) -/

/-- The `less` function of line 88. -/
def chunkLess (a b : StreamPacket) : Bool := decide (a.ChunkIndex < b.ChunkIndex)

/-- The condition of line 93:
`lastChunk[len(lastChunk)-2] == 0xff && lastChunk[len(lastChunk)-1] == 0xd9 &&
firstChunk[0] == 0xff && firstChunk[1] == 0xd8`. -/
def boundaryCheck (firstChunk lastChunk : List Byte) : Option Bool :=
  goAnd
    (goAnd
      (goAnd (eqAt lastChunk ((lastChunk.length : Int) - 2) 0xff)
        (eqAt lastChunk ((lastChunk.length : Int) - 1) 0xd9))
      (eqAt firstChunk 0 0xff))
    (eqAt firstChunk 1 0xd8)

/-- The buffer `emptyBuf := make([]byte, 1400)` of line 101. -/
def emptyBuf : List Byte := List.replicate 1400 0

/-- The body of the loop of lines 96-106 for one value of `i`. -/
def appendChunk (imageChunks : List StreamPacket) (imageData : List Byte) (i : Nat) :
    Option (List Byte) :=
  let chunkIndex := IndexFunc imageChunks (fun chunk => decide (chunk.ChunkIndex.val = i))
  if chunkIndex = -1 then
    some (imageData ++ emptyBuf)
  else
    (idx imageChunks chunkIndex).map (fun chunk => imageData ++ chunk.Payload)

/-- Lines 95-106: `imageData` after `for i := 1; i < totalChunks; i++`. -/
def buildImageData (imageChunks : List StreamPacket) (totalChunks : Nat) :
    Option (List Byte) :=
  (List.Ico 1 totalChunks).foldlM (appendChunk imageChunks) []

/-- The arguments of the `fmt.Printf` of lines 107-111: the first four and the
last four bytes of `imageData`, each an index expression. -/
def debugPrint (imageData : List Byte) : Option Unit :=
  let n : Int := imageData.length
  match idx imageData 0, idx imageData 1, idx imageData 2, idx imageData 3,
      idx imageData (n - 4), idx imageData (n - 3), idx imageData (n - 2),
      idx imageData (n - 1) with
  | some _, some _, some _, some _, some _, some _, some _, some _ => some ()
  | _, _, _, _, _, _, _, _ => none

/-- Lines 90-113: the rest of the loop body, on the slice `imageChunks` that the
`sort.Slice` of lines 87-89 has put in order. -/
def reassembleSorted (imageChunks : List StreamPacket) : Outcome VideoFrame :=
  match idx imageChunks ((imageChunks.length : Int) - 1), idx imageChunks 0 with
  | some last, some first =>
    let totalChunks : Nat := last.ChunkIndex.val
    let firstChunk := first.Payload
    let lastChunk := last.Payload
    match boundaryCheck firstChunk lastChunk with
    | none => .panic
    | some false => .nothing
    | some true =>
      match buildImageData imageChunks totalChunks with
      | none => .panic
      | some imageData =>
        match debugPrint imageData with
        | none => .panic
        | some _ => .sent { JpegData := imageData, Time := first.Time }
  | _, _ => .panic

/-- Lines 87-113: the body of the loop over the buckets, for one bucket. -/
def reassemble (sort : SortPkg) (bucket : List StreamPacket) : Outcome VideoFrame :=
  reassembleSorted (sort.Slice chunkLess bucket)

/-! ## Stage 4: sequencing (main.go, lines 118-124) -/

/-- The `less` function of line 123. -/
def frameLess (a b : VideoFrame) : Bool := decide (a.Time.Unix < b.Time.Unix)

/-- Lines 122-124: `imageFrames` after `sort.Slice`. -/
def sequence (sort : SortPkg) (imageFrames : List VideoFrame) : List VideoFrame :=
  sort.Slice frameLess imageFrames

/-! ## The loop over the buckets and the output (main.go, lines 86-132) -/

/-- Lines 86-116 with the buckets of the map visited in the order `visit` (Go
leaves the iteration order of a map unspecified): the images sent on
`imagesChan`, in the order in which they are sent, or `none` when one of the
buckets makes the program panic. -/
def reassembleAll (sort : SortPkg) : List (List StreamPacket) → Option (List VideoFrame)
  | [] => some []
  | imageChunks :: rest =>
    match reassemble sort imageChunks with
    | .panic => none
    | .nothing => reassembleAll sort rest
    | .sent image => (reassembleAll sort rest).map (fun images => image :: images)

/-- Lines 118-124: `imageFrames` after the images of all buckets have been
received and put in order. -/
def outputFrames (sort : SortPkg) (visit : List (List StreamPacket)) :
    Option (List VideoFrame) :=
  (reassembleAll sort visit).map (sequence sort)

/-- Lines 125-132: the files written, as pairs of the number `i` of
`frame_i.jpg` and the bytes written to it. -/
def frameFiles (imageFrames : List VideoFrame) : List (Nat × List Byte) :=
  imageFrames.enum.map (fun e => (e.1, e.2.JpegData))

/-! ## Two instances of `sort.Slice` -/

/-- Insertion sort with respect to `less`; elements that `less` does not
separate keep the order they had in `x`. -/
def insertionSlice {α : Type} (less : α → α → Bool) (x : List α) : List α :=
  x.insertionSort (fun a b => less b a = false)

/-- A `sort.Slice` that keeps equal elements in their input order. -/
def stableSort : SortPkg where
  Slice := insertionSlice
  perm := fun _ x => List.perm_insertionSort _ x
  sorted := fun {α} less h x => by
    haveI : IsTotal α (fun a b => less b a = false) := ⟨fun a b => by
      cases hba : less b a with
      | false => exact Or.inl rfl
      | true =>
        right
        cases hab : less a b with
        | false => rfl
        | true =>
          have := h.2.1 a b a hab hba
          rw [h.1 a] at this
          exact absurd this (by simp)⟩
    haveI : IsTrans α (fun a b => less b a = false) :=
      ⟨fun a b c hab hbc => h.2.2 c b a hbc hab⟩
    exact List.sorted_insertionSort _ x

/-! ## `sort.Slice` as Go implements it (Go 1.19 and later), on slices of at most 13 elements

`sort.Slice(x, less)` runs `pdqsort_func(data, 0, n, bits.Len(n))` of the package
`sort`, where `data.Less(i, j)` is `less` on the elements now at `i` and `j` and
`data.Swap(i, j)` exchanges them.

* For `n ≤ 12` (`maxInsertion`) this is `insertionSort_func(data, 0, n)`.
* For `n = 13` the limit is 4 and both flags `wasBalanced`, `wasPartitioned`
  are `true`: `choosePivot_func` takes the median of `data[3]`, `data[6]`,
  `data[9]` and counts the swaps it makes; when it makes none (the hint is
  `increasingHint`), `partialInsertionSort_func` looks for the first descent and
  `pdqsort_func` returns when there is none (on fewer than 50 elements it moves
  nothing); otherwise `partition_func` puts the pivot at `mid`, and the two
  sides `data[0:mid]` and `data[mid+1:13]`, of at most 12 elements each, are
  sorted by `insertionSort_func`.
* Longer slices reach branches of `pdqsort_func` that are not transcribed here
  (heap sort, `breakPatterns_func`, `partitionEqual_func`, the ninther); what
  `sort.Slice` returns for them is taken from a parameter, by contract.
-/

/-- The method `data.Less(i, j)` of `lessSwap`. -/
def lessAt {α : Type} (less : α → α → Bool) (data : List α) (i j : Nat) : Bool :=
  match data[i]?, data[j]? with
  | some x, some y => less x y
  | _, _ => false

/-- The method `data.Swap(i, j)` of `lessSwap`. -/
def swapAt {α : Type} (data : List α) (i j : Nat) : List α :=
  match data[i]?, data[j]? with
  | some x, some y => (data.set i y).set j x
  | _, _ => data

/-- The inner loop of `insertionSort_func`,
`for j := i; j > a && data.Less(j, j-1); j-- { data.Swap(j, j-1) }`:
the element `x = data[i]` moves to the left past the elements it is less than.
The part `data[a:i]` is given from right to left, and so is the result
`data[a:i+1]`. -/
def siftLeft {α : Type} (less : α → α → Bool) (x : α) : List α → List α
  | [] => [x]
  | y :: before => if less x y then y :: siftLeft less x before else x :: y :: before

/-- The function `insertionSort_func(data, a, b)` on the part `data[a:b]`:
`for i := a + 1; i < b; i++` with the inner loop `siftLeft`. -/
def insertionSortFunc {α : Type} (less : α → α → Bool) (data : List α) : List α :=
  (data.foldl (fun sortedRev x => siftLeft less x sortedRev) []).reverse

/-- The function `order2_func(data, a, b, swaps)`: the pair `(b, a)` and one
more swap counted when `data.Less(b, a)`, the pair `(a, b)` otherwise. -/
def order2 {α : Type} (less : α → α → Bool) (data : List α) (a b swaps : Nat) :
    Nat × Nat × Nat :=
  if lessAt less data b a then (b, a, swaps + 1) else (a, b, swaps)

/-- The function `median_func(data, a, b, c, swaps)`:
`a, b = order2(a, b); b, c = order2(b, c); a, b = order2(a, b); return b`,
with the number of swaps counted. -/
def median {α : Type} (less : α → α → Bool) (data : List α) (a b c swaps : Nat) : Nat × Nat :=
  let r1 := order2 less data a b swaps
  let r2 := order2 less data r1.2.1 c r1.2.2
  let r3 := order2 less data r1.1 r2.1 r2.2.2
  (r3.2.1, r3.2.2)

/-- The function `choosePivot_func(data, 0, l)` for `8 ≤ l < 50`: the median of
the elements at `l/4*1`, `l/4*2`, `l/4*3`, and the number of swaps counted (the
hint is `increasingHint` exactly when this number is 0). -/
def choosePivot {α : Type} (less : α → α → Bool) (data : List α) : Nat × Nat :=
  let l := data.length
  median less data (l / 4 * 1) (l / 4 * 2) (l / 4 * 3) 0

/-- The loop `for i < b && !data.Less(i, i-1) { i++ }` of
`partialInsertionSort_func`. -/
def scanAscending {α : Type} (less : α → α → Bool) (data : List α) : Nat → Nat → Nat
  | 0, i => i
  | fuel + 1, i =>
    if i < data.length && !lessAt less data i (i - 1) then
      scanAscending less data fuel (i + 1)
    else i

/-- The function `partialInsertionSort_func(data, 0, n)` for `n < 50`
(`shortestShifting`): `true` when the loop from `i := 1` reaches `n`, `false`
at the first descent; the slice is left as it is. -/
def partialInsertionSort {α : Type} (less : α → α → Bool) (data : List α) : Bool :=
  scanAscending less data data.length 1 == data.length

/-- The loop `for i <= j && data.Less(i, a) { i++ }` of `partition_func`,
with `a = 0`. -/
def scanUp {α : Type} (less : α → α → Bool) (data : List α) (j : Nat) : Nat → Nat → Nat
  | 0, i => i
  | fuel + 1, i => if i ≤ j && lessAt less data i 0 then scanUp less data j fuel (i + 1) else i

/-- The loop `for i <= j && !data.Less(j, a) { j-- }` of `partition_func`,
with `a = 0`. -/
def scanDown {α : Type} (less : α → α → Bool) (data : List α) (i : Nat) : Nat → Nat → Nat
  | 0, j => j
  | fuel + 1, j =>
    if i ≤ j && !lessAt less data j 0 then scanDown less data i fuel (j - 1) else j

/-- The `for` loop that ends `partition_func`: the two scans, `break` when
`i > j`, and otherwise `data.Swap(i, j); i++; j--`.  The result is the slice and
`j` at the `break`. -/
def partitionLoop {α : Type} (less : α → α → Bool) : Nat → List α → Nat → Nat → List α × Nat
  | 0, data, _, j => (data, j)
  | fuel + 1, data, i, j =>
    let i1 := scanUp less data j data.length i
    let j1 := scanDown less data i1 data.length j
    if i1 > j1 then (data, j1)
    else partitionLoop less fuel (swapAt data i1 j1) (i1 + 1) (j1 - 1)

/-- The function `partition_func(data, 0, n, pivot)`: `data.Swap(a, pivot)`,
`i, j := a+1, b-1`, the two scans; `data.Swap(j, a); return j, true` when
`i > j`; otherwise `data.Swap(i, j); i++; j--`, the loop, and
`data.Swap(j, a); return j, false`. -/
def partitionFunc {α : Type} (less : α → α → Bool) (data0 : List α) (pivot : Nat) :
    List α × Nat × Bool :=
  let data := swapAt data0 0 pivot
  let i := scanUp less data (data.length - 1) data.length 1
  let j := scanDown less data i data.length (data.length - 1)
  if i > j then (swapAt data j 0, j, true)
  else
    let r := partitionLoop less data.length (swapAt data i j) (i + 1) (j - 1)
    (swapAt r.1 r.2 0, r.2, false)

/-- The run of `pdqsort_func(data, 0, 13, 4)`: the pivot is chosen; with no swap
counted and no descent found the slice is returned as it is; otherwise it is
partitioned, and `data[0:mid]` and `data[mid+1:13]` are sorted by insertion. -/
def pdqsort13 {α : Type} (less : α → α → Bool) (data : List α) : List α :=
  let c := choosePivot less data
  if c.2 == 0 && partialInsertionSort less data then data
  else
    let r := partitionFunc less data c.1
    insertionSortFunc less (r.1.take r.2.1) ++ (r.1.drop r.2.1).take 1 ++
      insertionSortFunc less (r.1.drop (r.2.1 + 1))

/-- The function `sort.Slice(x, less)` of Go 1.19 and later: insertion sort up to
12 elements, `pdqsort13` for 13, and for longer slices what `longer` returns. -/
def goSlice {α : Type} (longer : SortPkg) (less : α → α → Bool) (x : List α) : List α :=
  if x.length ≤ 12 then insertionSortFunc less x
  else if x.length ≤ 13 then pdqsort13 less x
  else longer.Slice less x

/-- What holds while `partition_func` runs on a slice of `n` elements with the
pivot at 0: the elements at `1, ..., i - 1` are less than the pivot, those at
`j + 1, ..., n - 1` are not. -/
def PartInv {α : Type} (less : α → α → Bool) (n : Nat) (data : List α) (i j : Nat) : Prop :=
  data.length = n ∧ 1 ≤ i ∧ i ≤ j + 1 ∧ j < n ∧
  (∀ k, 1 ≤ k → k < i → lessAt less data k 0 = true) ∧
  (∀ k, j < k → k < n → lessAt less data k 0 = false)

/-- Go's `sort.Slice` as a `SortPkg`: `goSlice` returns a rearrangement of its
input, ordered with respect to a valid `less`.  The facts are proved in
sequence: insertion sort, swaps, the scans and the loop of `partition_func`,
`partition_func`, the run on 13 elements. -/
def goSort (longer : SortPkg) : SortPkg :=
  have siftLeft_perm : ∀ {α : Type} (less : α → α → Bool) (x : α) (rev : List α),
      (siftLeft less x rev).Perm (x :: rev) := by
    intro α less x rev
    induction rev with
    | nil => exact List.Perm.refl _
    | cons y before ih =>
      unfold siftLeft
      split
      · exact (List.Perm.cons y ih).trans (List.Perm.swap x y before)
      · exact List.Perm.refl _
  have foldl_siftLeft_perm : ∀ {α : Type} (less : α → α → Bool) (data acc : List α),
      (data.foldl (fun sortedRev x => siftLeft less x sortedRev) acc).Perm (data.reverse ++ acc) := by
    intro α less data acc
    induction data generalizing acc with
    | nil => simp
    | cons x rest ih =>
      rw [List.foldl_cons]
      refine (ih _).trans ?_
      rw [List.reverse_cons, List.append_assoc]
      exact List.Perm.append_left _ (siftLeft_perm less x acc)
  have insertionSortFunc_perm : ∀ {α : Type} (less : α → α → Bool) (data : List α),
      (insertionSortFunc less data).Perm data := by
    intro α less data
    unfold insertionSortFunc
    refine (List.reverse_perm _).trans ((foldl_siftLeft_perm less data []).trans ?_)
    rw [List.append_nil]
    exact List.reverse_perm data
  have siftLeft_sorted : ∀ {α : Type} (less : α → α → Bool) (h : LessOK less) (x : α)
      (rev : List α) (hs : rev.Pairwise (fun a b => less a b = false)),
      (siftLeft less x rev).Pairwise (fun a b => less a b = false) := by
    intro α less h x rev hs
    induction rev with
    | nil => simp [siftLeft]
    | cons y before ih =>
      rw [List.pairwise_cons] at hs
      unfold siftLeft
      split
      · rename_i hxy
        rw [List.pairwise_cons]
        refine ⟨?_, ih hs.2⟩
        intro z hz
        rcases List.mem_cons.1 ((siftLeft_perm less x before).subset hz) with hz1 | hz1
        · subst hz1
          cases hyz : less y z with
          | false => rfl
          | true =>
            have := h.2.1 z y z hxy hyz
            rw [h.1 z] at this
            exact absurd this (by simp)
        · exact hs.1 z hz1
      · rename_i hxy
        simp only [Bool.not_eq_true] at hxy
        rw [List.pairwise_cons]
        refine ⟨?_, List.pairwise_cons.2 hs⟩
        intro z hz
        rcases List.mem_cons.1 hz with hz1 | hz1
        · subst hz1; exact hxy
        · exact h.2.2 x y z hxy (hs.1 z hz1)
  have foldl_siftLeft_sorted : ∀ {α : Type} (less : α → α → Bool) (h : LessOK less)
      (data acc : List α) (hs : acc.Pairwise (fun a b => less a b = false)),
      (data.foldl (fun sortedRev x => siftLeft less x sortedRev) acc).Pairwise
          (fun a b => less a b = false) := by
    intro α less h data acc hs
    induction data generalizing acc with
    | nil => exact hs
    | cons x rest ih =>
      rw [List.foldl_cons]
      exact ih _ (siftLeft_sorted less h x acc hs)
  have insertionSortFunc_sorted : ∀ {α : Type} (less : α → α → Bool) (h : LessOK less)
      (data : List α),
      (insertionSortFunc less data).Pairwise (fun a b => less b a = false) := by
    intro α less h data
    unfold insertionSortFunc
    rw [List.pairwise_reverse]
    exact foldl_siftLeft_sorted less h data [] List.Pairwise.nil
  have cons_set_perm : ∀ {α : Type} (t : List α) (j : Nat) (y a : α) (h : t[j]? = some y),
      (y :: t.set j a).Perm (a :: t) := by
    intro α t j y a h
    induction t generalizing j with
    | nil => simp at h
    | cons b u ih =>
      cases j with
      | zero =>
        simp only [List.getElem?_cons_zero, Option.some.injEq] at h
        subst h
        simp only [List.set_cons_zero]
        exact List.Perm.swap _ _ _
      | succ j =>
        simp only [List.getElem?_cons_succ] at h
        simp only [List.set_cons_succ]
        exact (List.Perm.swap b y _).trans (((ih j h).cons b).trans (List.Perm.swap a b u))
  have swapAt_perm : ∀ {α : Type} (data : List α) (i j : Nat),
      (swapAt data i j).Perm data := by
    intro α data i j
    unfold swapAt
    split
    · rename_i x y hx hy
      induction data generalizing i j with
      | nil => simp at hx
      | cons a t ih =>
        cases i with
        | zero =>
          simp only [List.getElem?_cons_zero, Option.some.injEq] at hx
          subst hx
          cases j with
          | zero =>
            simp only [List.getElem?_cons_zero, Option.some.injEq] at hy
            subst hy
            simp
          | succ j =>
            simp only [List.getElem?_cons_succ] at hy
            simp only [List.set_cons_zero, List.set_cons_succ]
            exact cons_set_perm t j y a hy
        | succ i =>
          simp only [List.getElem?_cons_succ] at hx
          cases j with
          | zero =>
            simp only [List.getElem?_cons_zero, Option.some.injEq] at hy
            subst hy
            simp only [List.set_cons_zero, List.set_cons_succ]
            exact cons_set_perm t i x a hx
          | succ j =>
            simp only [List.getElem?_cons_succ] at hy
            simp only [List.set_cons_succ]
            exact (ih i j hx hy).cons a
    · exact List.Perm.refl _
  have swapAt_length : ∀ {α : Type} (data : List α) (i j : Nat),
      (swapAt data i j).length = data.length := by
    intro α data i j
    exact (swapAt_perm data i j).length_eq
  have swapAt_getElem? : ∀ {α : Type} (data : List α) (i j k : Nat) (hi : i < data.length)
      (hj : j < data.length),
      (swapAt data i j)[k]? = if k = j then data[i]? else if k = i then data[j]? else data[k]? := by
    intro α data i j k hi hj
    unfold swapAt
    rw [List.getElem?_eq_getElem hi, List.getElem?_eq_getElem hj]
    simp only
    rw [List.getElem?_set, List.getElem?_set]
    by_cases hkj : k = j
    · subst hkj
      simp [hj]
    · have hjk : ¬ j = k := fun h => hkj h.symm
      rw [if_neg hjk, if_neg hkj]
      by_cases hki : k = i
      · subst hki
        simp [hi]
      · have hik : ¬ i = k := fun h => hki h.symm
        rw [if_neg hik, if_neg hki]
  have lessAt_swapAt : ∀ {α : Type} (less : α → α → Bool) (data : List α) (i j k : Nat)
      (hi : i < data.length) (hj : j < data.length) (hi0 : i ≠ 0) (hj0 : j ≠ 0),
      lessAt less (swapAt data i j) k 0 =
          lessAt less data (if k = j then i else if k = i then j else k) 0 := by
    intro α less data i j k hi hj hi0 hj0
    unfold lessAt
    have h0j : ¬ (0 = j) := fun h => hj0 h.symm
    have h0i : ¬ (0 = i) := fun h => hi0 h.symm
    rw [swapAt_getElem? data i j k hi hj, swapAt_getElem? data i j 0 hi hj, if_neg h0j, if_neg h0i]
    by_cases hkj : k = j
    · simp only [if_pos hkj]
    · simp only [if_neg hkj]
      by_cases hki : k = i
      · simp only [if_pos hki]
      · simp only [if_neg hki]
  have scanUp_spec : ∀ {α : Type} (less : α → α → Bool) (data : List α) (j fuel i : Nat)
      (hfuel : j + 1 ≤ i + fuel) (hij : i ≤ j + 1),
      i ≤ scanUp less data j fuel i ∧ scanUp less data j fuel i ≤ j + 1 ∧
        (∀ k, i ≤ k → k < scanUp less data j fuel i → lessAt less data k 0 = true) ∧
        (scanUp less data j fuel i ≤ j → lessAt less data (scanUp less data j fuel i) 0 = false) := by
    intro α less data j fuel i hfuel hij
    induction fuel generalizing i with
    | zero =>
      have : i = j + 1 := by omega
      subst this
      simp only [scanUp]
      refine ⟨le_refl _, le_refl _, ?_, ?_⟩
      · intro k h1 h2; omega
      · intro h; omega
    | succ fuel ih =>
      unfold scanUp
      by_cases hc : (decide (i ≤ j) && lessAt less data i 0) = true
      · rw [if_pos hc]
        simp only [Bool.and_eq_true, decide_eq_true_eq] at hc
        obtain ⟨h1, h2, h3, h4⟩ := ih (i + 1) (by omega) (by omega)
        refine ⟨by omega, h2, ?_, h4⟩
        intro k hk1 hk2
        by_cases hki : k = i
        · subst hki; exact hc.2
        · exact h3 k (by omega) hk2
      · rw [if_neg hc]
        refine ⟨le_refl _, hij, ?_, ?_⟩
        · intro k h1 h2; omega
        · intro h
          simp only [Bool.and_eq_true, decide_eq_true_eq, not_and, Bool.not_eq_true] at hc
          exact hc h
  have scanDown_spec : ∀ {α : Type} (less : α → α → Bool) (data : List α) (i fuel j : Nat)
      (hfuel : j + 1 ≤ i + fuel) (hij : i ≤ j + 1) (hi : 1 ≤ i),
      scanDown less data i fuel j ≤ j ∧ i ≤ scanDown less data i fuel j + 1 ∧
        (∀ k, scanDown less data i fuel j < k → k ≤ j → lessAt less data k 0 = false) ∧
        (i ≤ scanDown less data i fuel j →
          lessAt less data (scanDown less data i fuel j) 0 = true) := by
    intro α less data i fuel j hfuel hij hi
    induction fuel generalizing j with
    | zero =>
      have : i = j + 1 := by omega
      simp only [scanDown]
      refine ⟨le_refl _, hij, ?_, ?_⟩
      · intro k h1 h2; omega
      · intro h; omega
    | succ fuel ih =>
      unfold scanDown
      by_cases hc : (decide (i ≤ j) && !lessAt less data j 0) = true
      · rw [if_pos hc]
        simp only [Bool.and_eq_true, decide_eq_true_eq, Bool.not_eq_true'] at hc
        obtain ⟨h1, h2, h3, h4⟩ := ih (j - 1) (by omega) (by omega)
        refine ⟨by omega, h2, ?_, h4⟩
        intro k hk1 hk2
        by_cases hkj : k = j
        · subst hkj; exact hc.2
        · exact h3 k hk1 (by omega)
      · rw [if_neg hc]
        refine ⟨le_refl _, hij, ?_, ?_⟩
        · intro k h1 h2; omega
        · intro h
          simp only [Bool.and_eq_true, decide_eq_true_eq, Bool.not_eq_true', not_and,
            Bool.not_eq_false] at hc
          exact hc h
  have partitionLoop_spec : ∀ {α : Type} (less : α → α → Bool) (n fuel : Nat) (data : List α)
      (i j : Nat) (hinv : PartInv less n data i j) (hfuel : j + 1 ≤ i + fuel),
      (partitionLoop less fuel data i j).1.Perm data ∧
        (partitionLoop less fuel data i j).1[0]? = data[0]? ∧
        PartInv less n (partitionLoop less fuel data i j).1
          ((partitionLoop less fuel data i j).2 + 1) (partitionLoop less fuel data i j).2 := by
    intro α less n fuel data i j hinv hfuel
    induction fuel generalizing data i j with
    | zero =>
      obtain ⟨h1, h2, h3, h4, h5, h6⟩ := hinv
      have : i = j + 1 := by omega
      subst this
      exact ⟨List.Perm.refl _, rfl, h1, by omega, le_refl _, h4, h5, h6⟩
    | succ fuel ih =>
      obtain ⟨h1, h2, h3, h4, h5, h6⟩ := hinv
      obtain ⟨u1, u2, u3, u4⟩ := scanUp_spec less data j data.length i (by omega) h3
      obtain ⟨d1, d2, d3, d4⟩ := scanDown_spec less data (scanUp less data j data.length i)
        data.length j (by omega) u2 (by omega)
      unfold partitionLoop
      simp only
      by_cases hc : scanUp less data j data.length i
          > scanDown less data (scanUp less data j data.length i) data.length j
      · rw [if_pos hc]
        refine ⟨List.Perm.refl _, rfl, h1, by omega, le_refl _, by omega, ?_, ?_⟩
        · intro k hk1 hk2
          by_cases hki : k < i
          · exact h5 k hk1 hki
          · exact u3 k (by omega) (by omega)
        · intro k hk1 hk2
          by_cases hkj : j < k
          · exact h6 k hkj hk2
          · exact d3 k hk1 (by omega)
      · rw [if_neg hc]
        have hle : scanUp less data j data.length i
            ≤ scanDown less data (scanUp less data j data.length i) data.length j := by omega
        have hu := u4 (by omega)
        have hd := d4 hle
        have hne : scanUp less data j data.length i
            ≠ scanDown less data (scanUp less data j data.length i) data.length j := by
          intro he
          rw [← he, hu] at hd
          exact absurd hd (by simp)
        have hi1 : scanUp less data j data.length i < data.length := by omega
        have hj1 : scanDown less data (scanUp less data j data.length i) data.length j
            < data.length := by omega
        have hinv2 : PartInv less n (swapAt data (scanUp less data j data.length i)
            (scanDown less data (scanUp less data j data.length i) data.length j))
            (scanUp less data j data.length i + 1)
            (scanDown less data (scanUp less data j data.length i) data.length j - 1) := by
          refine ⟨by rw [swapAt_length, h1], by omega, by omega, by omega, ?_, ?_⟩
          · intro k hk1 hk2
            rw [lessAt_swapAt less data _ _ k hi1 hj1 (by omega) (by omega)]
            by_cases hkj : k = scanDown less data (scanUp less data j data.length i) data.length j
            · omega
            · rw [if_neg hkj]
              by_cases hki : k = scanUp less data j data.length i
              · rw [if_pos hki]; exact hd
              · rw [if_neg hki]
                by_cases hk3 : k < i
                · exact h5 k hk1 hk3
                · exact u3 k (by omega) (by omega)
          · intro k hk1 hk2
            rw [lessAt_swapAt less data _ _ k hi1 hj1 (by omega) (by omega)]
            by_cases hkj : k = scanDown less data (scanUp less data j data.length i) data.length j
            · rw [if_pos hkj]; exact hu
            · rw [if_neg hkj]
              by_cases hki : k = scanUp less data j data.length i
              · omega
              · rw [if_neg hki]
                by_cases hk3 : j < k
                · exact h6 k hk3 hk2
                · exact d3 k (by omega) (by omega)
        obtain ⟨r1, r2, r3⟩ := ih _ _ _ hinv2 (by omega)
        refine ⟨r1.trans (swapAt_perm _ _ _), ?_, r3⟩
        rw [r2, swapAt_getElem? data _ _ 0 hi1 hj1, if_neg (by omega), if_neg (by omega)]
  have lessAt_eq : ∀ {α : Type} (less : α → α → Bool) (data : List α) (k : Nat) (x p : α)
      (hk : data[k]? = some x) (h0 : data[0]? = some p),
      lessAt less data k 0 = less x p := by
    intro α less data k x p hk h0
    unfold lessAt
    rw [hk, h0]
  have partitionFunc_eq : ∀ {α : Type} (less : α → α → Bool) (data0 : List α) (pivot : Nat),
      (partitionFunc less data0 pivot).1 =
          swapAt (partitionLoop less ((swapAt data0 0 pivot).length + 1) (swapAt data0 0 pivot) 1
            ((swapAt data0 0 pivot).length - 1)).1
            (partitionLoop less ((swapAt data0 0 pivot).length + 1) (swapAt data0 0 pivot) 1
            ((swapAt data0 0 pivot).length - 1)).2 0 ∧
        (partitionFunc less data0 pivot).2.1 =
          (partitionLoop less ((swapAt data0 0 pivot).length + 1) (swapAt data0 0 pivot) 1
            ((swapAt data0 0 pivot).length - 1)).2 := by
    intro α less data0 pivot
    unfold partitionFunc
    simp only
    rw [partitionLoop]
    split <;> exact ⟨rfl, rfl⟩
  have partitionFunc_spec : ∀ {α : Type} (less : α → α → Bool) (data0 : List α) (pivot : Nat)
      (hn : 0 < data0.length),
      (partitionFunc less data0 pivot).1.Perm data0 ∧
        (partitionFunc less data0 pivot).2.1 < data0.length ∧
        ∃ p, (partitionFunc less data0 pivot).1[(partitionFunc less data0 pivot).2.1]? = some p ∧
          (∀ k x, (partitionFunc less data0 pivot).1[k]? = some x →
            k < (partitionFunc less data0 pivot).2.1 → less x p = true) ∧
          (∀ k x, (partitionFunc less data0 pivot).1[k]? = some x →
            (partitionFunc less data0 pivot).2.1 < k → less x p = false) := by
    intro α less data0 pivot hn
    obtain ⟨e1, e2⟩ := partitionFunc_eq less data0 pivot
    rw [e1, e2]
    have hlen : (swapAt data0 0 pivot).length = data0.length := swapAt_length _ _ _
    have hinv0 : PartInv less data0.length (swapAt data0 0 pivot) 1
        ((swapAt data0 0 pivot).length - 1) := by
      refine ⟨hlen, le_refl _, by omega, by omega, ?_, ?_⟩
      · intro k h1 h2; omega
      · intro k h1 h2; omega
    obtain ⟨r1, r2, r3⟩ := partitionLoop_spec less data0.length
      ((swapAt data0 0 pivot).length + 1) (swapAt data0 0 pivot) 1
      ((swapAt data0 0 pivot).length - 1) hinv0 (by omega)
    generalize partitionLoop less ((swapAt data0 0 pivot).length + 1) (swapAt data0 0 pivot) 1
      ((swapAt data0 0 pivot).length - 1) = r at r1 r2 r3
    obtain ⟨q1, q2, q3, q4, q5, q6⟩ := r3
    have h0 : 0 < r.1.length := by omega
    have hmid : r.2 < r.1.length := by omega
    refine ⟨(swapAt_perm _ _ _).trans (r1.trans (swapAt_perm _ _ _)), q4, r.1[0], ?_, ?_, ?_⟩
    · rw [swapAt_getElem? r.1 r.2 0 r.2 hmid h0]
      by_cases hm : r.2 = 0
      · rw [if_pos hm, hm, List.getElem?_eq_getElem h0]
      · rw [if_neg hm, if_pos rfl, List.getElem?_eq_getElem h0]
    · intro k x hk hlt
      rw [swapAt_getElem? r.1 r.2 0 k hmid h0] at hk
      by_cases hk0 : k = 0
      · rw [if_pos hk0] at hk
        have := q5 r.2 (by omega) (by omega)
        rw [lessAt_eq less r.1 r.2 x r.1[0] hk (List.getElem?_eq_getElem h0)] at this
        exact this
      · rw [if_neg hk0, if_neg (by omega)] at hk
        have := q5 k (by omega) (by omega)
        rw [lessAt_eq less r.1 k x r.1[0] hk (List.getElem?_eq_getElem h0)] at this
        exact this
    · intro k x hk hlt
      rw [swapAt_getElem? r.1 r.2 0 k hmid h0, if_neg (by omega), if_neg (by omega)] at hk
      have hkn : k < r.1.length := by
        by_contra hc
        rw [List.getElem?_eq_none (by omega)] at hk
        exact absurd hk (by simp)
      have := q6 k hlt (by omega)
      rw [lessAt_eq less r.1 k x r.1[0] hk (List.getElem?_eq_getElem h0)] at this
      exact this
  have ascending_pairwise : ∀ {α : Type} (less : α → α → Bool) (h : LessOK less) (data : List α)
      (hasc : ∀ k, 1 ≤ k → k < data.length → lessAt less data k (k - 1) = false),
      data.Pairwise (fun a b => less b a = false) := by
    intro α less h data hasc
    induction data with
    | nil => exact List.Pairwise.nil
    | cons a t ih =>
      have ht : t.Pairwise (fun a b => less b a = false) := by
        apply ih
        intro k hk1 hk2
        have := hasc (k + 1) (by omega) (by simp; omega)
        unfold lessAt at this ⊢
        have e : k + 1 - 1 = (k - 1) + 1 := by omega
        rw [e] at this
        simpa using this
      rw [List.pairwise_cons]
      refine ⟨?_, ht⟩
      cases t with
      | nil => intro b hb; simp at hb
      | cons c u =>
        have hca : less c a = false := by
          have := hasc 1 (le_refl _) (by simp)
          simpa [lessAt] using this
        intro b hb
        rcases List.mem_cons.1 hb with hb1 | hb1
        · rw [hb1]; exact hca
        · exact h.2.2 b c a ((List.pairwise_cons.1 ht).1 b hb1) hca
  have scanAscending_spec : ∀ {α : Type} (less : α → α → Bool) (data : List α) (fuel i : Nat),
      i ≤ scanAscending less data fuel i ∧
        ∀ k, i ≤ k → k < scanAscending less data fuel i → lessAt less data k (k - 1) = false := by
    intro α less data fuel i
    induction fuel generalizing i with
    | zero =>
      simp only [scanAscending]
      exact ⟨le_refl _, fun k h1 h2 => by omega⟩
    | succ fuel ih =>
      unfold scanAscending
      by_cases hc : (decide (i < data.length) && !lessAt less data i (i - 1)) = true
      · rw [if_pos hc]
        simp only [Bool.and_eq_true, decide_eq_true_eq, Bool.not_eq_true'] at hc
        obtain ⟨h1, h2⟩ := ih (i + 1)
        refine ⟨by omega, ?_⟩
        intro k hk1 hk2
        by_cases hki : k = i
        · subst hki; exact hc.2
        · exact h2 k (by omega) hk2
      · rw [if_neg hc]
        exact ⟨le_refl _, fun k h1 h2 => by omega⟩
  have partialInsertionSort_sorted : ∀ {α : Type} (less : α → α → Bool) (h : LessOK less)
      (data : List α) (hp : partialInsertionSort less data = true),
      data.Pairwise (fun a b => less b a = false) := by
    intro α less h data hp
    unfold partialInsertionSort at hp
    have hp2 : scanAscending less data data.length 1 = data.length := by simpa using hp
    obtain ⟨-, h2⟩ := scanAscending_spec less data data.length 1
    rw [hp2] at h2
    exact ascending_pairwise less h data h2
  have take_mid_drop : ∀ {α : Type} (l : List α) (mid : Nat),
      l.take mid ++ (l.drop mid).take 1 ++ l.drop (mid + 1) = l := by
    intro α l mid
    rw [List.append_assoc, ← List.drop_drop 1 mid l, List.take_append_drop, List.take_append_drop]
  have pdqsort13_perm : ∀ {α : Type} (less : α → α → Bool) (data : List α),
      (pdqsort13 less data).Perm data := by
    intro α less data
    unfold pdqsort13
    simp only
    split
    · exact List.Perm.refl _
    · cases hd : data with
      | nil => simp [partitionFunc, swapAt, scanUp, scanDown, insertionSortFunc]
      | cons a t =>
        rw [← hd]
        obtain ⟨hperm, -, -⟩ := partitionFunc_spec less data (choosePivot less data).1
          (by rw [hd]; simp)
        refine List.Perm.trans ?_ hperm
        refine List.Perm.trans ?_ (List.Perm.of_eq (take_mid_drop _
          (partitionFunc less data (choosePivot less data).1).2.1))
        exact ((insertionSortFunc_perm less _).append_right _).append
          (insertionSortFunc_perm less _)
  have pdqsort13_sorted : ∀ {α : Type} (less : α → α → Bool) (h : LessOK less) (data : List α)
      (hn : 0 < data.length),
      (pdqsort13 less data).Pairwise (fun a b => less b a = false) := by
    intro α less h data hn
    unfold pdqsort13
    simp only
    split
    · rename_i hc
      simp only [Bool.and_eq_true] at hc
      exact partialInsertionSort_sorted less h data hc.2
    · obtain ⟨-, hmid, p, hp, hlo, hhi⟩ := partitionFunc_spec less data (choosePivot less data).1 hn
      generalize partitionFunc less data (choosePivot less data).1 = r at hmid hp hlo hhi
      have hL : ∀ a ∈ insertionSortFunc less (r.1.take r.2.1), less a p = true := by
        intro a ha
        have ha2 := (insertionSortFunc_perm less _).subset ha
        obtain ⟨k, hk⟩ := List.mem_iff_getElem?.1 ha2
        rw [List.getElem?_take] at hk
        split at hk
        · rename_i hlt
          exact hlo k a hk hlt
        · exact absurd hk (by simp)
      have hR : ∀ b ∈ insertionSortFunc less (r.1.drop (r.2.1 + 1)), less b p = false := by
        intro b hb
        have hb2 := (insertionSortFunc_perm less _).subset hb
        obtain ⟨k, hk⟩ := List.mem_iff_getElem?.1 hb2
        rw [List.getElem?_drop] at hk
        exact hhi _ b hk (by omega)
      have hM : ∀ m ∈ (r.1.drop r.2.1).take 1, m = p := by
        intro m hm
        obtain ⟨k, hk⟩ := List.mem_iff_getElem?.1 hm
        rw [List.getElem?_take] at hk
        split at hk
        · rename_i hlt
          have hk0 : k = 0 := by omega
          subst hk0
          rw [List.getElem?_drop, Nat.add_zero, hp] at hk
          exact (Option.some.inj hk).symm
        · exact absurd hk (by simp)
      have hasym : ∀ a b, less a b = true → less b a = false := by
        intro a b hab
        cases hba : less b a with
        | false => rfl
        | true =>
          have := h.2.1 a b a hab hba
          rw [h.1 a] at this
          exact absurd this (by simp)
      rw [List.pairwise_append, List.pairwise_append]
      refine ⟨⟨insertionSortFunc_sorted less h _, ?_, ?_⟩, insertionSortFunc_sorted less h _, ?_⟩
      · refine List.pairwise_of_forall_mem_list ?_
        intro a ha b hb
        rw [hM a ha, hM b hb]
        exact h.1 p
      · intro a ha b hb
        rw [hM b hb]
        exact hasym a p (hL a ha)
      · intro a ha b hb
        rcases List.mem_append.1 ha with ha1 | ha1
        · cases hba : less b a with
          | false => rfl
          | true =>
            have := h.2.1 b a p hba (hL a ha1)
            rw [hR b hb] at this
            exact absurd this (by simp)
        · rw [hM a ha1]
          exact hR b hb
  { Slice := fun less x => goSlice longer less x
    perm := fun less x => by
      show (goSlice longer less x).Perm x
      unfold goSlice
      split
      · exact insertionSortFunc_perm less x
      · split
        · exact pdqsort13_perm less x
        · exact longer.perm less x
    sorted := fun less h x => by
      show (goSlice longer less x).Pairwise (fun a b => less b a = false)
      unfold goSlice
      split
      · exact insertionSortFunc_sorted less h x
      · rename_i h12
        split
        · exact pdqsort13_sorted less h x (by omega)
        · exact longer.sorted less h x }

/-! ## Sample inputs -/

/-- A 56-byte UDP payload with the magic marker and otherwise distinct bytes. -/
def samplePayload : List Byte :=
  [99, 99, 2, 3, 4, 5, 6, 7, 8, 9, 10, 11, 12, 13, 14, 15, 16, 17, 18, 19, 20, 21, 22, 23,
   24, 25, 26, 27, 28, 29, 30, 31, 32, 33, 34, 35, 36, 37, 38, 39, 40, 41, 42, 43, 44, 45,
   46, 47, 48, 49, 50, 51, 52, 53, 54, 55]

/-- The capture time used in the sample buckets. -/
def t0 : Time := ⟨10, 0⟩

/-- Scenario A, chunk 0: starts with `FF D8`. -/
def chunk0 : StreamPacket := ⟨1, 0, 0, 58, [0xff, 0xd8, 1, 2], t0⟩

/-- Scenario A, chunk 1. -/
def chunk1 : StreamPacket := ⟨1, 1, 0, 58, [3, 4, 5, 6], ⟨11, 0⟩⟩

/-- Scenario A, chunk 2: ends with `FF D9`. -/
def chunk2 : StreamPacket := ⟨1, 2, 0, 58, [7, 8, 0xff, 0xd9], ⟨12, 0⟩⟩

/-- The 54 header bytes of a datagram of the protocol: the marker `99 99`, then
zeros (stream ID 0, chunk index 0, flags 0). -/
def zeroHeader : List Byte := [99, 99] ++ List.replicate 52 0

/-- The shortest datagram the classification accepts: the header and one
payload byte. -/
def tinyDatagram : List Byte := zeroHeader ++ [0]

/-- The record made from `tinyDatagram`. -/
def tinyRecord : StreamPacket := ⟨0, 0, 0, 55, [0], t0⟩

/-- A datagram whose payload is a whole image: `FF D8 FF D9`. -/
def soleDatagram : List Byte := zeroHeader ++ [0xff, 0xd8, 0xff, 0xd9]

/-- The record made from `soleDatagram`: chunk 0 of a one-chunk stream. -/
def soleChunk : StreamPacket := ⟨0, 0, 0, 58, [0xff, 0xd8, 0xff, 0xd9], t0⟩

/-- A final chunk with index 1: ends with `FF D9`. -/
def endChunk1 : StreamPacket := ⟨1, 1, 0, 58, [3, 4, 0xff, 0xd9], ⟨11, 0⟩⟩

/-- An image captured in Unix second 10. -/
def frameA : VideoFrame := ⟨[1], ⟨10, 0⟩⟩

/-- Another image, captured in the same Unix second as `frameA`. -/
def frameB : VideoFrame := ⟨[2], ⟨10, 500⟩⟩

/-- The payload the loop of lines 96-106 appends for position `i`: that of the
first record of `imageChunks` with `ChunkIndex == i`, or `emptyBuf`. -/
def segment (imageChunks : List StreamPacket) (i : Nat) : List Byte :=
  match imageChunks.find? (fun chunk => decide (chunk.ChunkIndex.val = i)) with
  | some chunk => chunk.Payload
  | none => emptyBuf

/-- A final chunk with index 3: ends with `FF D9`. -/
def chunk3 : StreamPacket := ⟨1, 3, 0, 58, [7, 8, 0xff, 0xd9], ⟨13, 0⟩⟩

/-- A 55-byte datagram whose one payload byte is `FF`. -/
def ffDatagram : List Byte := zeroHeader ++ [0xff]

/-- The record made from `ffDatagram`: chunk 0 with the one-byte payload `FF`. -/
def ffRecord : StreamPacket := ⟨0, 0, 0, 55, [0xff], t0⟩

/-- A final chunk of stream 0 with index 1: ends with `FF D9`. -/
def endRecord : StreamPacket := ⟨0, 1, 0, 58, [3, 4, 0xff, 0xd9], ⟨11, 0⟩⟩

/-- The bucket passes the condition of line 93: after the sort, the payload of
the first record and that of the last record make it `true`. -/
def accepted (sort : SortPkg) (bucket : List StreamPacket) : Bool :=
  match (sort.Slice chunkLess bucket).head?, (sort.Slice chunkLess bucket).getLast? with
  | some first, some last => boundaryCheck first.Payload last.Payload == some true
  | _, _ => false

/-- The record `chunk`, with `payload` in the place of its payload when its
chunk index is 0. -/
def withChunk0Payload (payload : List Byte) (chunk : StreamPacket) : StreamPacket :=
  if chunk.ChunkIndex = 0 then { chunk with Payload := payload } else chunk

/-- The image a bucket puts on `imagesChan`, if it puts one. -/
def sentImage (sort : SortPkg) (bucket : List StreamPacket) : Option VideoFrame :=
  match reassemble sort bucket with
  | .sent image => some image
  | _ => none

/-- The records 0, 1, 2 of a second stream, captured ten seconds before those of
scenario A. -/
def otherStream : List StreamPacket :=
  [⟨2, 0, 0, 58, [0xff, 0xd8, 1, 2], ⟨0, 0⟩⟩, ⟨2, 1, 0, 58, [9, 9, 9, 9], ⟨0, 5⟩⟩,
   ⟨2, 2, 0, 58, [7, 8, 0xff, 0xd9], ⟨1, 0⟩⟩]

/-- Thirteen images in capture order: the first of second 11, the other twelve
of second 10.  The data of each is its position in the list. -/
def frames13 : List VideoFrame :=
  [⟨[0], ⟨11, 0⟩⟩, ⟨[1], ⟨10, 1⟩⟩, ⟨[2], ⟨10, 2⟩⟩, ⟨[3], ⟨10, 3⟩⟩, ⟨[4], ⟨10, 4⟩⟩,
   ⟨[5], ⟨10, 5⟩⟩, ⟨[6], ⟨10, 6⟩⟩, ⟨[7], ⟨10, 7⟩⟩, ⟨[8], ⟨10, 8⟩⟩, ⟨[9], ⟨10, 9⟩⟩,
   ⟨[10], ⟨10, 10⟩⟩, ⟨[11], ⟨10, 11⟩⟩, ⟨[12], ⟨10, 12⟩⟩]

/-! ## Theorems -/

/-! ### Index expressions and the classification -/

theorem idx_natCast {α : Type} (s : List α) (n : Nat) : idx s (n : Int) = s[n]? := by
  simp [idx]

theorem idx_zero {α : Type} (s : List α) : idx s 0 = s[0]? := idx_natCast s 0

theorem idx_of_lt {α : Type} (s : List α) (n : Nat) (h : n < s.length) :
    idx s (n : Int) = some s[n] := by
  rw [idx_natCast, List.getElem?_eq_getElem h]

theorem idx_of_neg {α : Type} (s : List α) (i : Int) (h : i < 0) : idx s i = none := by
  simp [idx, h]

theorem idx_some_of_range {α : Type} (s : List α) (i : Int) (h0 : 0 ≤ i)
    (h1 : i < s.length) : ∃ a, idx s i = some a := by
  have h2 : i.toNat < s.length := by omega
  refine ⟨s[i.toNat], ?_⟩
  unfold idx
  rw [if_neg (by omega), List.getElem?_eq_getElem h2]

theorem idx_none_of_range {α : Type} (s : List α) (i : Int)
    (h : i < 0 ∨ (s.length : Int) ≤ i) : idx s i = none := by
  unfold idx
  split
  · rfl
  · exact List.getElem?_eq_none (by omega)

theorem packID_eq (d8 d9 d12 d13 : Byte) :
    packID d8 d9 d12 d13 = d8.val * 2 ^ 24 + d9.val * 2 ^ 16 + d12.val * 2 ^ 8 + d13.val := by
  have h8 := d8.isLt
  have h9 := d9.isLt
  have h12 := d12.isLt
  have h13 := d13.isLt
  unfold packID
  simp only [Nat.shiftLeft_eq]
  rw [Nat.mod_eq_of_lt (show d8.val * 2 ^ 24 < 2 ^ 32 by omega),
    Nat.mod_eq_of_lt (show d9.val * 2 ^ 16 < 2 ^ 32 by omega),
    Nat.mod_eq_of_lt (show d12.val * 2 ^ 8 < 2 ^ 32 by omega)]
  have e1 : d12.val * 2 ^ 8 ||| d13.val = d12.val * 2 ^ 8 + d13.val := by
    rw [Nat.mul_comm, ← Nat.mul_add_lt_is_or (by omega)]
  have e2 : d9.val * 2 ^ 16 ||| (d12.val * 2 ^ 8 + d13.val)
      = d9.val * 2 ^ 16 + (d12.val * 2 ^ 8 + d13.val) := by
    rw [Nat.mul_comm, ← Nat.mul_add_lt_is_or (by omega)]
  have e3 : d8.val * 2 ^ 24 ||| (d9.val * 2 ^ 16 + (d12.val * 2 ^ 8 + d13.val))
      = d8.val * 2 ^ 24 + (d9.val * 2 ^ 16 + (d12.val * 2 ^ 8 + d13.val)) := by
    rw [Nat.mul_comm, ← Nat.mul_add_lt_is_or (by omega)]
  rw [Nat.lor_assoc, Nat.lor_assoc, e1, e2, e3]
  omega

theorem isStreamPacket_of_wellFormed (d : List Byte) (hlen : 55 ≤ d.length)
    (h0 : d[0] = 99) (h1 : d[1] = 99) : isStreamPacket d = some true := by
  have e0 : idx d 0 = some d[0] := idx_of_lt d 0 (by omega)
  have e1 : idx d 1 = some d[1] := idx_of_lt d 1 (by omega)
  simp [isStreamPacket, eqAt, e0, e1, h0, h1, goAnd]
  omega

/-- A payload of 55 bytes or more that starts with `99 99` is made into a record
whose fields are read at the offsets 8, 9, 12, 13, 48, 50 and from 54 on. -/
theorem classify_of_marker (d : List Byte) (ts : Time) (hlen : 55 ≤ d.length)
    (h0 : d[0] = 99) (h1 : d[1] = 99) :
    classify d ts = .sent
      { ID := d[8].val * 2 ^ 24 + d[9].val * 2 ^ 16 + d[12].val * 2 ^ 8 + d[13].val
        ChunkIndex := d[48]
        UnknownValue := d[50]
        PacketSize := d.length
        Payload := d.drop 54
        Time := ts } := by
  have e8 : idx d 8 = some d[8] := idx_of_lt d 8 (by omega)
  have e9 : idx d 9 = some d[9] := idx_of_lt d 9 (by omega)
  have e12 : idx d 12 = some d[12] := idx_of_lt d 12 (by omega)
  have e13 : idx d 13 = some d[13] := idx_of_lt d 13 (by omega)
  have e48 : idx d 48 = some d[48] := idx_of_lt d 48 (by omega)
  have e50 : idx d 50 = some d[50] := idx_of_lt d 50 (by omega)
  have es : sliceFrom d 54 = some (d.drop 54) := by
    simp [sliceFrom]; omega
  simp only [classify, isStreamPacket_of_wellFormed d hlen h0 h1, e8, e9, e12, e13, e48, e50,
    es, packID_eq]

theorem isStreamPacket_cons_cons (x y : Byte) (rest : List Byte) :
    isStreamPacket (x :: y :: rest) =
      some (decide (x = 99 ∧ y = 99 ∧ 54 < (x :: y :: rest).length)) := by
  have e0 : idx (x :: y :: rest) 0 = some x := idx_of_lt (x :: y :: rest) 0 (by simp)
  have e1 : idx (x :: y :: rest) 1 = some y := idx_of_lt (x :: y :: rest) 1 (by simp)
  unfold isStreamPacket eqAt
  rw [e0, e1]
  by_cases hx : x = 99 <;> by_cases hy : y = 99 <;> simp [goAnd, hx, hy]

theorem isStreamPacket_singleton (x : Byte) :
    isStreamPacket [x] = if x = 99 then none else some false := by
  have e0 : idx [x] 0 = some x := idx_of_lt [x] 0 (by simp)
  have e1 : idx [x] 1 = none := idx_none_of_range [x] 1 (Or.inr (by simp))
  unfold isStreamPacket eqAt
  rw [e0, e1]
  by_cases hx : x = 99 <;> simp [goAnd, hx]

/-- Payloads of two bytes or more never make the classification panic: they are
rejected when they are shorter than 55 bytes or do not start with `99 99`. -/
theorem classify_rejects (data : List Byte) (ts : Time) (h2 : 2 ≤ data.length)
    (h : data.length < 55 ∨ ¬ (data[0]? = some 99 ∧ data[1]? = some 99)) :
    classify data ts = .nothing := by
  match data, h2 with
  | x :: y :: rest, _ =>
    unfold classify
    rw [isStreamPacket_cons_cons]
    have hd : decide (x = 99 ∧ y = 99 ∧ 54 < (x :: y :: rest).length) = false := by
      rw [decide_eq_false_iff_not]
      rintro ⟨hx, hy, hl⟩
      rcases h with h | h
      · omega
      · exact h (by simp [hx, hy])
    rw [hd]

/-- The classification panics on exactly two payloads: the empty one and the
one-byte payload `99`. -/
theorem classify_panic_iff (data : List Byte) (ts : Time) :
    classify data ts = .panic ↔ data = [] ∨ data = [99] := by
  constructor
  · intro h
    match data with
    | [] => exact Or.inl rfl
    | [x] =>
      by_cases hx : x = 99
      · exact Or.inr (by rw [hx])
      · unfold classify at h
        rw [isStreamPacket_singleton, if_neg hx] at h
        exact absurd h (by simp)
    | x :: y :: rest =>
      exfalso
      by_cases hd : x = 99 ∧ y = 99 ∧ 54 < (x :: y :: rest).length
      · have hw := classify_of_marker (x :: y :: rest) ts (by omega)
          (by simpa using hd.1) (by simpa using hd.2.1)
        rw [hw] at h
        exact absurd h (by simp)
      · have hr := classify_rejects (x :: y :: rest) ts (by simp) (by
          by_cases hl : (x :: y :: rest).length < 55
          · exact Or.inl hl
          · right
            rintro ⟨h0, h1⟩
            simp only [List.getElem?_cons_zero, Option.some.injEq] at h0
            simp only [List.getElem?_cons_succ, List.getElem?_cons_zero, Option.some.injEq] at h1
            exact hd ⟨h0, h1, by omega⟩)
        rw [hr] at h
        exact absurd h (by simp)
  · rintro (h | h) <;> subst h <;> rfl

/-! ### The map of the grouping stage -/

theorem Buckets.get_set (res : Buckets) (id id' : Nat) (v : List StreamPacket) :
    Buckets.get (Buckets.set res id v) id' = if id = id' then some v else Buckets.get res id' := by
  induction res with
  | nil => simp [Buckets.set, Buckets.get]
  | cons e rest ih =>
    obtain ⟨k, w⟩ := e
    by_cases hk : k = id
    · subst hk
      by_cases h2 : k = id' <;> simp [Buckets.set, Buckets.get, h2]
    · by_cases h2 : k = id'
      · subst h2
        simp [Buckets.set, Buckets.get, hk, Ne.symm hk]
      · simp [Buckets.set, Buckets.get, hk, h2, ih]

theorem Buckets.get_eq_none_iff (res : Buckets) (id : Nat) :
    Buckets.get res id = none ↔ id ∉ res.map Prod.fst := by
  induction res with
  | nil => simp [Buckets.get]
  | cons e rest ih =>
    obtain ⟨k, w⟩ := e
    by_cases hk : k = id
    · simp [Buckets.get, hk]
    · simp only [Buckets.get, hk, if_false, ih, List.map_cons, List.mem_cons]
      constructor
      · intro h hc
        rcases hc with hc | hc
        · exact hk hc.symm
        · exact h hc
      · intro h hc
        exact h (Or.inr hc)

theorem Buckets.keys_set (res : Buckets) (id : Nat) (v : List StreamPacket) :
    (Buckets.set res id v).map Prod.fst =
      if id ∈ res.map Prod.fst then res.map Prod.fst else res.map Prod.fst ++ [id] := by
  induction res with
  | nil => simp [Buckets.set]
  | cons e rest ih =>
    obtain ⟨k, w⟩ := e
    by_cases hk : k = id
    · simp [Buckets.set, hk]
    · have hk2 : ¬ id = k := fun h => hk h.symm
      by_cases hm : id ∈ rest.map Prod.fst
      · rw [if_pos hm] at ih
        have hm2 : id ∈ ((k, w) :: rest).map Prod.fst := by
          rw [List.map_cons]; exact List.mem_cons_of_mem _ hm
        rw [if_pos hm2]
        simp only [Buckets.set, hk, if_false, List.map_cons, ih]
      · rw [if_neg hm] at ih
        have hm2 : id ∉ ((k, w) :: rest).map Prod.fst := by
          rw [List.map_cons, List.mem_cons]
          rintro (h | h)
          · exact hk2 h
          · exact hm h
        rw [if_neg hm2]
        simp only [Buckets.set, hk, if_false, List.map_cons, ih, List.cons_append]

theorem Buckets.nodup_set (res : Buckets) (id : Nat) (v : List StreamPacket)
    (h : (res.map Prod.fst).Nodup) : ((Buckets.set res id v).map Prod.fst).Nodup := by
  rw [Buckets.keys_set]
  split
  · exact h
  · rename_i hm
    rw [List.nodup_append]
    refine ⟨h, List.nodup_singleton id, ?_⟩
    intro a ha hb
    rw [List.mem_singleton] at hb
    subst hb
    exact hm ha

theorem Buckets.mem_iff_get (res : Buckets) (h : (res.map Prod.fst).Nodup) (id : Nat)
    (b : List StreamPacket) : (id, b) ∈ res ↔ Buckets.get res id = some b := by
  induction res with
  | nil => simp [Buckets.get]
  | cons e rest ih =>
    obtain ⟨k, w⟩ := e
    rw [List.map_cons, List.nodup_cons] at h
    by_cases hk : k = id
    · subst hk
      simp only [Buckets.get, if_true, List.mem_cons, Prod.mk.injEq, true_and, Option.some.injEq]
      constructor
      · rintro (h1 | h1)
        · exact h1.symm
        · exact absurd (List.mem_map_of_mem Prod.fst h1) h.1
      · intro h1
        exact Or.inl h1.symm
    · simp only [Buckets.get, hk, if_false, List.mem_cons, Prod.mk.injEq, ← ih h.2]
      constructor
      · rintro (h1 | h1)
        · exact absurd h1.1.symm hk
        · exact h1
      · intro h1
        exact Or.inr h1

theorem group_append_singleton (packets : List StreamPacket) (p : StreamPacket) :
    group (packets ++ [p]) = groupStep (group packets) p := by
  simp [group, List.foldl_append]

theorem group_keys_nodup (packets : List StreamPacket) :
    ((group packets).map Prod.fst).Nodup := by
  induction packets using List.reverseRecOn with
  | nil => simp [group]
  | append_singleton l p ih =>
    rw [group_append_singleton]
    unfold groupStep
    split <;> exact Buckets.nodup_set _ _ _ ih

theorem group_get (packets : List StreamPacket) (id : Nat) :
    Buckets.get (group packets) id =
      if packets.filter (fun p => decide (p.ID = id)) = [] then none
      else some (packets.filter (fun p => decide (p.ID = id))) := by
  induction packets using List.reverseRecOn with
  | nil => simp [group, Buckets.get]
  | append_singleton l p ih =>
    rw [group_append_singleton, List.filter_append]
    by_cases hp : p.ID = id
    · subst hp
      have hf : List.filter (fun q => decide (q.ID = p.ID)) [p] = [p] := by simp
      rw [hf]
      unfold groupStep
      rw [ih]
      split
      · rename_i found hfound
        split at hfound
        · exact absurd hfound (by simp)
        · simp only [Option.some.injEq] at hfound
          rw [Buckets.get_set, if_pos rfl, hfound]
          simp
      · rename_i hnone
        split at hnone
        · rename_i hnil
          rw [Buckets.get_set, if_pos rfl, hnil]
          simp
        · exact absurd hnone (by simp)
    · have hf : List.filter (fun q => decide (q.ID = id)) [p] = [] := by simp [hp]
      rw [hf, List.append_nil, ← ih]
      unfold groupStep
      split <;> rw [Buckets.get_set, if_neg hp]

/-! ### `sort.Slice` on the two `less` functions of the program -/

theorem chunkLess_ok : LessOK chunkLess := by
  refine ⟨?_, ?_, ?_⟩
  · intro a; simp [chunkLess]
  · intro a b c hab hbc
    simp only [chunkLess, decide_eq_true_eq] at *
    exact lt_trans hab hbc
  · intro a b c hab hbc
    simp only [chunkLess, decide_eq_false_iff_not, not_lt] at *
    exact le_trans hbc hab

theorem frameLess_ok : LessOK frameLess := by
  refine ⟨?_, ?_, ?_⟩
  · intro a; simp [frameLess]
  · intro a b c hab hbc
    simp only [frameLess, decide_eq_true_eq] at *
    exact lt_trans hab hbc
  · intro a b c hab hbc
    simp only [frameLess, decide_eq_false_iff_not, not_lt] at *
    exact le_trans hbc hab

/-- After line 87-89 the chunk indices are in non-decreasing order. -/
theorem sortedChunks_pairwise (sort : SortPkg) (bucket : List StreamPacket) :
    (sort.Slice chunkLess bucket).Pairwise (fun a b => a.ChunkIndex ≤ b.ChunkIndex) := by
  refine (sort.sorted chunkLess chunkLess_ok bucket).imp ?_
  intro a b h
  simpa [chunkLess] using h

/-- Every `sort.Slice` puts a slice whose elements are pairwise separated by
`less` into the one strictly increasing order. -/
theorem SortPkg.Slice_eq_of_perm {α : Type} (sort : SortPkg) (less : α → α → Bool)
    (hless : LessOK less) (x y : List α) (hxy : x.Perm y)
    (hy : y.Pairwise (fun a b => less a b = true)) : sort.Slice less x = y := by
  have hirr : ∀ a, ¬ less a a = true := fun a h => by
    rw [hless.1 a] at h; exact absurd h (by simp)
  have hasym : ∀ a b, less a b = true → less b a = true → False :=
    fun a b hab hba => hirr a (hless.2.1 a b a hab hba)
  haveI : IsAntisymm α (fun a b => less a b = true) :=
    ⟨fun a b hab hba => (hasym a b hab hba).elim⟩
  have hperm := (sort.perm less x).trans hxy
  have hnd : y.Nodup := by
    refine List.Pairwise.imp ?_ hy
    intro a b h hab
    subst hab
    exact hirr a h
  have hcmp : ∀ a ∈ y, ∀ b ∈ y, a ≠ b → (less a b = true ∨ less b a = true) := by
    intro a ha b hb hab
    exact (hy.imp (fun {a b} (h : less a b = true) =>
      (Or.inl h : less a b = true ∨ less b a = true))).forall (fun a b h => h.symm) ha hb hab
  have hs : (sort.Slice less x).Pairwise (fun a b => less a b = true) := by
    have h1 := sort.sorted less hless x
    have h2 : (sort.Slice less x).Nodup := (hperm.nodup_iff).2 hnd
    refine (h1.and h2).imp_of_mem ?_
    intro a b ha hb h
    rcases hcmp a (hperm.subset ha) b (hperm.subset hb) h.2 with h3 | h3
    · exact h3
    · rw [h.1] at h3; exact absurd h3 (by simp)
  exact List.eq_of_perm_of_sorted hperm hs hy

/-! ### The loop of lines 96-106 -/

theorem find?_eq_getElem?_findIdx {α : Type} (s : List α) (f : α → Bool) :
    s.find? f = s[s.findIdx f]? := by
  induction s with
  | nil => simp
  | cons b l ih =>
    by_cases hb : f b = true
    · simp [List.find?_cons, List.findIdx_cons, hb]
    · simp only [Bool.not_eq_true] at hb
      simp [List.find?_cons, List.findIdx_cons, hb, ih]

theorem idx_IndexFunc {α : Type} (s : List α) (f : α → Bool) :
    (IndexFunc s f = -1 ∧ s.find? f = none) ∨
    (IndexFunc s f ≠ -1 ∧ ∃ a, idx s (IndexFunc s f) = some a ∧ s.find? f = some a) := by
  by_cases h : s.findIdx f < s.length
  · right
    have e : IndexFunc s f = (s.findIdx f : Int) := by simp [IndexFunc, h]
    refine ⟨?_, s[s.findIdx f], ?_, ?_⟩
    · rw [e]; omega
    · rw [e, idx_of_lt]
    · rw [find?_eq_getElem?_findIdx, List.getElem?_eq_getElem h]
  · left
    refine ⟨by simp [IndexFunc, h], ?_⟩
    rw [find?_eq_getElem?_findIdx, List.getElem?_eq_none (by omega)]

theorem appendChunk_eq (imageChunks : List StreamPacket) (imageData : List Byte) (i : Nat) :
    appendChunk imageChunks imageData i = some (imageData ++ segment imageChunks i) := by
  unfold appendChunk segment
  rcases idx_IndexFunc imageChunks (fun chunk => decide (chunk.ChunkIndex.val = i)) with
    ⟨h1, h2⟩ | ⟨h1, a, h2, h3⟩
  · simp only [h1, if_true, h2]
  · simp only [h1, if_false, h2, h3, Option.map_some']

theorem foldlM_appendChunk (imageChunks : List StreamPacket) (is : List Nat)
    (imageData : List Byte) :
    is.foldlM (appendChunk imageChunks) imageData =
      some (imageData ++ (is.map (segment imageChunks)).flatten) := by
  induction is generalizing imageData with
  | nil => simp
  | cons i rest ih =>
    rw [List.foldlM_cons, appendChunk_eq]
    simp only [Option.bind_eq_bind, Option.some_bind, ih, List.map_cons, List.flatten_cons,
      List.append_assoc]

/-- The loop of lines 96-106 never panics; it appends the segments of the
positions `1, ..., totalChunks - 1`, in this order. -/
theorem buildImageData_eq (imageChunks : List StreamPacket) (totalChunks : Nat) :
    buildImageData imageChunks totalChunks =
      some (((List.Ico 1 totalChunks).map (segment imageChunks)).flatten) := by
  unfold buildImageData
  rw [foldlM_appendChunk, List.nil_append]

/-! ### The debug print of lines 107-111 and the condition of line 93 -/

theorem debugPrint_of_short (imageData : List Byte) (h : imageData.length < 4) :
    debugPrint imageData = none := by
  unfold debugPrint
  have e : idx imageData 3 = none := idx_none_of_range imageData 3 (Or.inr (by omega))
  simp only [e]
  split
  · rename_i h3 _ _ _ _
    exact absurd h3 (by simp)
  · rfl

theorem debugPrint_of_long (imageData : List Byte) (h : 4 ≤ imageData.length) :
    debugPrint imageData = some () := by
  unfold debugPrint
  obtain ⟨a0, e0⟩ := idx_some_of_range imageData 0 (by omega) (by omega)
  obtain ⟨a1, e1⟩ := idx_some_of_range imageData 1 (by omega) (by omega)
  obtain ⟨a2, e2⟩ := idx_some_of_range imageData 2 (by omega) (by omega)
  obtain ⟨a3, e3⟩ := idx_some_of_range imageData 3 (by omega) (by omega)
  obtain ⟨b4, f4⟩ := idx_some_of_range imageData ((imageData.length : Int) - 4)
    (by omega) (by omega)
  obtain ⟨b3, f3⟩ := idx_some_of_range imageData ((imageData.length : Int) - 3)
    (by omega) (by omega)
  obtain ⟨b2, f2⟩ := idx_some_of_range imageData ((imageData.length : Int) - 2)
    (by omega) (by omega)
  obtain ⟨b1, f1⟩ := idx_some_of_range imageData ((imageData.length : Int) - 1)
    (by omega) (by omega)
  simp only [e0, e1, e2, e3, f4, f3, f2, f1]

/-! ### The loop body of lines 90-113 -/

theorem idx_zero_eq_head? {α : Type} (s : List α) : idx s 0 = s.head? := by
  cases s <;> simp [idx]

theorem idx_last_eq_getLast? {α : Type} (s : List α) :
    idx s ((s.length : Int) - 1) = s.getLast? := by
  induction s using List.reverseRecOn with
  | nil => simp [idx]
  | append_singleton l a _ =>
    have e : (((l ++ [a]).length : Nat) : Int) - 1 = (l.length : Int) := by
      simp
    rw [e, idx_natCast]
    simp

/-- What an accepted bucket looks like: the sorted slice has a first and a last
record, the condition of line 93 holds, the image data are the segments of the
positions `1, ..., totalChunks - 1`, they are at least four bytes long, and the
time is that of the first record. -/
theorem reassembleSorted_sent (imageChunks : List StreamPacket) (img : VideoFrame)
    (h : reassembleSorted imageChunks = .sent img) :
    ∃ first last, imageChunks.head? = some first ∧ imageChunks.getLast? = some last ∧
      boundaryCheck first.Payload last.Payload = some true ∧
      img.JpegData =
        ((List.Ico 1 last.ChunkIndex.val).map (segment imageChunks)).flatten ∧
      4 ≤ img.JpegData.length ∧ img.Time = first.Time := by
  unfold reassembleSorted at h
  rw [idx_zero_eq_head?, idx_last_eq_getLast?] at h
  split at h
  · rename_i last first hlast hfirst
    refine ⟨first, last, hfirst, hlast, ?_⟩
    simp only [buildImageData_eq] at h
    split at h
    · exact absurd h (by simp)
    · exact absurd h (by simp)
    · rename_i hb
      by_cases hl : 4 ≤ (((List.Ico 1 last.ChunkIndex.val).map (segment imageChunks)).flatten).length
      · rw [debugPrint_of_long _ hl] at h
        simp only [Outcome.sent.injEq] at h
        subst h
        exact ⟨hb, rfl, hl, rfl⟩
      · rw [debugPrint_of_short _ (by omega)] at h
        exact absurd h (by simp)
  · exact absurd h (by simp)

/-- The loop body on a slice whose first and last record pass the condition of
line 93: the image is sent when the debug print finds four bytes, and the
program panics otherwise. -/
theorem reassembleSorted_of_check (imageChunks : List StreamPacket) (first last : StreamPacket)
    (hfirst : imageChunks.head? = some first) (hlast : imageChunks.getLast? = some last)
    (hb : boundaryCheck first.Payload last.Payload = some true) :
    reassembleSorted imageChunks =
      if 4 ≤ (((List.Ico 1 last.ChunkIndex.val).map (segment imageChunks)).flatten).length then
        .sent ⟨((List.Ico 1 last.ChunkIndex.val).map (segment imageChunks)).flatten, first.Time⟩
      else .panic := by
  unfold reassembleSorted
  rw [idx_zero_eq_head?, idx_last_eq_getLast?, hfirst, hlast]
  simp only [hb, buildImageData_eq]
  by_cases hl : 4 ≤ (((List.Ico 1 last.ChunkIndex.val).map (segment imageChunks)).flatten).length
  · rw [debugPrint_of_long _ hl, if_pos hl]
  · rw [debugPrint_of_short _ (by omega), if_neg hl]

/-- A bucket that passes the condition of line 93 and whose largest chunk index
is 0 or 1 makes the program panic: the loop of line 96 appends nothing, and the
debug print reads `imageData[0]`. -/
theorem reassembleSorted_panics_of_le_one (imageChunks : List StreamPacket)
    (first last : StreamPacket) (hfirst : imageChunks.head? = some first)
    (hlast : imageChunks.getLast? = some last)
    (hb : boundaryCheck first.Payload last.Payload = some true)
    (hN : last.ChunkIndex.val ≤ 1) : reassembleSorted imageChunks = .panic := by
  rw [reassembleSorted_of_check imageChunks first last hfirst hlast hb,
    List.Ico.eq_nil_of_le hN]
  rfl

/-! ### The sorted slice: its first record has the smallest chunk index, its last the largest -/

theorem sortedChunks_head_min (sort : SortPkg) (bucket : List StreamPacket) (first : StreamPacket)
    (hfirst : (sort.Slice chunkLess bucket).head? = some first) :
    first ∈ bucket ∧ ∀ r ∈ bucket, first.ChunkIndex ≤ r.ChunkIndex := by
  have hperm := sort.perm chunkLess bucket
  have hsorted := sortedChunks_pairwise sort bucket
  obtain ⟨tl, htl⟩ := List.head?_eq_some_iff.1 hfirst
  rw [htl] at hperm hsorted
  refine ⟨hperm.subset (List.mem_cons_self _ _), ?_⟩
  intro r hr
  rcases List.mem_cons.1 (hperm.symm.subset hr) with h1 | h1
  · rw [h1]
  · exact (List.pairwise_cons.1 hsorted).1 r h1

theorem sortedChunks_last_max (sort : SortPkg) (bucket : List StreamPacket) (last : StreamPacket)
    (hlast : (sort.Slice chunkLess bucket).getLast? = some last) :
    last ∈ bucket ∧ ∀ r ∈ bucket, r.ChunkIndex ≤ last.ChunkIndex := by
  have hperm := sort.perm chunkLess bucket
  have hsorted := sortedChunks_pairwise sort bucket
  obtain ⟨init, hinit⟩ := List.getLast?_eq_some_iff.1 hlast
  rw [hinit] at hperm hsorted
  refine ⟨hperm.subset (by simp), ?_⟩
  intro r hr
  rcases List.mem_append.1 (hperm.symm.subset hr) with h1 | h1
  · exact (List.pairwise_append.1 hsorted).2.2 r h1 last (List.mem_singleton_self _)
  · rw [List.mem_singleton.1 h1]

/-- What the loop body sends, in general: when an image is sent for `bucket`,
there are a record `first` with the smallest and a record `last` with the
largest chunk index `N` of the bucket that pass the condition of line 93; the
data are the segments of the positions `1, ..., N - 1` in ascending order, they
have at least four bytes, and the time is that of `first`. -/
theorem reassemble_sent (sort : SortPkg) (bucket : List StreamPacket) (img : VideoFrame)
    (h : reassemble sort bucket = .sent img) :
    ∃ first last, first ∈ bucket ∧ last ∈ bucket ∧
      (∀ r ∈ bucket, first.ChunkIndex ≤ r.ChunkIndex ∧ r.ChunkIndex ≤ last.ChunkIndex) ∧
      boundaryCheck first.Payload last.Payload = some true ∧
      img.JpegData = ((List.Ico 1 last.ChunkIndex.val).map
        (segment (sort.Slice chunkLess bucket))).flatten ∧
      4 ≤ img.JpegData.length ∧ img.Time = first.Time := by
  obtain ⟨first, last, hfirst, hlast, hb, hdata, hlen, htime⟩ := reassembleSorted_sent _ img h
  obtain ⟨hf1, hf2⟩ := sortedChunks_head_min sort bucket first hfirst
  obtain ⟨hl1, hl2⟩ := sortedChunks_last_max sort bucket last hlast
  exact ⟨first, last, hf1, hl1, fun r hr => ⟨hf2 r hr, hl2 r hr⟩, hb, hdata, hlen, htime⟩

/-- The segment of a position for which the bucket has a record is the payload
of a record of the bucket with that chunk index. -/
theorem segment_of_mem (sort : SortPkg) (bucket : List StreamPacket) (r : StreamPacket)
    (hr : r ∈ bucket) :
    ∃ c ∈ bucket, c.ChunkIndex = r.ChunkIndex ∧
      segment (sort.Slice chunkLess bucket) r.ChunkIndex.val = c.Payload := by
  have hperm := sort.perm chunkLess bucket
  unfold segment
  cases hfind : (sort.Slice chunkLess bucket).find?
      (fun chunk => decide (chunk.ChunkIndex.val = r.ChunkIndex.val)) with
  | none =>
    rw [List.find?_eq_none] at hfind
    have := hfind r (hperm.symm.subset hr)
    simp at this
  | some c =>
    refine ⟨c, hperm.subset (List.mem_of_find?_eq_some hfind), ?_, rfl⟩
    have := List.find?_some hfind
    simp only [decide_eq_true_eq] at this
    exact Fin.ext this

/-- The image sent for a bucket of records with non-empty payloads (such are all
records the classification makes) is never the concatenation of the segments of
the positions `1, ..., N` inclusive: the segment of position `N` is missing. -/
theorem reassemble_data_ne_inclusive (sort : SortPkg) (bucket : List StreamPacket)
    (img : VideoFrame) (hne : ∀ r ∈ bucket, r.Payload ≠ [])
    (h : reassemble sort bucket = .sent img) :
    ∃ last ∈ bucket, (∀ r ∈ bucket, r.ChunkIndex ≤ last.ChunkIndex) ∧
      img.JpegData ≠ ((List.Ico 1 (last.ChunkIndex.val + 1)).map
        (segment (sort.Slice chunkLess bucket))).flatten := by
  obtain ⟨first, last, -, hl, hminmax, -, hdata, hlen, -⟩ := reassemble_sent sort bucket img h
  refine ⟨last, hl, fun r hr => (hminmax r hr).2, ?_⟩
  have hN : 1 ≤ last.ChunkIndex.val := by
    by_contra hc
    rw [List.Ico.eq_nil_of_le (by omega)] at hdata
    rw [hdata] at hlen
    simp at hlen
  obtain ⟨c, hc, -, hseg⟩ := segment_of_mem sort bucket last hl
  rw [List.Ico.succ_top hN, List.map_append, List.flatten_append, ← hdata]
  intro heq
  have h2 := congrArg List.length heq
  simp only [List.map_cons, List.map_nil, List.flatten_cons, List.flatten_nil, List.append_nil,
    List.length_append, hseg] at h2
  have h3 : c.Payload.length ≠ 0 := fun h0 => hne c hc (List.length_eq_zero.1 h0)
  omega

/-! ### The condition of line 93 -/

theorem exists_two_last {α : Type} (l : List α) (h : 2 ≤ l.length) :
    ∃ init a b, l = init ++ [a, b] := by
  cases hr : l.reverse with
  | nil =>
    have : l.length = 0 := by rw [← List.length_reverse, hr]; rfl
    omega
  | cons b t =>
    cases t with
    | nil =>
      have : l.length = 1 := by rw [← List.length_reverse, hr]; rfl
      omega
    | cons a rest =>
      refine ⟨rest.reverse, a, b, ?_⟩
      have := congrArg List.reverse hr
      simpa using this

theorem idx_two_last {α : Type} (init : List α) (a b : α) :
    idx (init ++ [a, b]) (((init ++ [a, b]).length : Int) - 2) = some a ∧
    idx (init ++ [a, b]) (((init ++ [a, b]).length : Int) - 1) = some b := by
  have e2 : (((init ++ [a, b]).length : Nat) : Int) - 2 = ((init.length : Nat) : Int) := by
    simp
  have e1 : (((init ++ [a, b]).length : Nat) : Int) - 1 = ((init.length + 1 : Nat) : Int) := by
    simp; omega
  rw [e2, e1, idx_natCast, idx_natCast]
  constructor
  · rw [List.getElem?_append_right (le_refl _)]
    simp
  · rw [List.getElem?_append_right (by omega)]
    simp

/-- The condition of line 93 panics when the last payload has fewer than two
bytes. -/
theorem boundaryCheck_last_short (firstChunk lastChunk : List Byte)
    (h : lastChunk.length < 2) : boundaryCheck firstChunk lastChunk = none := by
  have e : idx lastChunk ((lastChunk.length : Int) - 2) = none :=
    idx_none_of_range _ _ (Or.inl (by omega))
  simp [boundaryCheck, eqAt, e, goAnd]

/-- The condition of line 93 is `false`, without looking at the first payload,
when the last payload has two bytes or more and does not end with `FF D9`. -/
theorem boundaryCheck_last_wrong (firstChunk lastChunk : List Byte)
    (h : 2 ≤ lastChunk.length) (hw : lastChunk.drop (lastChunk.length - 2) ≠ [0xff, 0xd9]) :
    boundaryCheck firstChunk lastChunk = some false := by
  obtain ⟨init, a, b, rfl⟩ := exists_two_last lastChunk h
  obtain ⟨e2, e1⟩ := idx_two_last init a b
  have hab : ¬ (a = 0xff ∧ b = 0xd9) := by
    rintro ⟨ha, hb⟩
    apply hw
    simp [ha, hb]
  unfold boundaryCheck eqAt
  rw [e2, e1]
  by_cases ha : a = 0xff
  · have hb : b ≠ 0xd9 := fun hb => hab ⟨ha, hb⟩
    simp [goAnd, ha, hb]
  · simp [goAnd, ha]

/-- The condition of line 93 when the last payload ends with `FF D9`: the two
comparisons on the first payload decide. -/
theorem boundaryCheck_last_ok (firstChunk lastChunk : List Byte)
    (hw : lastChunk.drop (lastChunk.length - 2) = [0xff, 0xd9]) :
    boundaryCheck firstChunk lastChunk =
      goAnd (eqAt firstChunk 0 0xff) (eqAt firstChunk 1 0xd8) := by
  have h : 2 ≤ lastChunk.length := by
    have := congrArg List.length hw
    simp at this
    omega
  obtain ⟨init, a, b, rfl⟩ := exists_two_last lastChunk h
  obtain ⟨e2, e1⟩ := idx_two_last init a b
  have hab : a = 0xff ∧ b = 0xd9 := by
    simpa using hw
  unfold boundaryCheck eqAt
  rw [e2, e1, hab.1, hab.2]
  cases h0 : idx firstChunk 0 with
  | none => simp [goAnd]
  | some x => by_cases hx : x = 0xff <;> simp [goAnd, hx]

/-- The condition of line 93 on payloads of two bytes or more: it never panics,
and it holds exactly when the first payload starts with `FF D8` and the last
one ends with `FF D9`. -/
theorem boundaryCheck_of_two (firstChunk lastChunk : List Byte)
    (hf : 2 ≤ firstChunk.length) (hl : 2 ≤ lastChunk.length) :
    boundaryCheck firstChunk lastChunk =
      some (decide (firstChunk.take 2 = [0xff, 0xd8] ∧
        lastChunk.drop (lastChunk.length - 2) = [0xff, 0xd9])) := by
  by_cases hw : lastChunk.drop (lastChunk.length - 2) = [0xff, 0xd9]
  · rw [boundaryCheck_last_ok _ _ hw]
    match firstChunk, hf with
    | x :: y :: rest, _ =>
      have e0 : idx (x :: y :: rest) 0 = some x := idx_of_lt (x :: y :: rest) 0 (by simp)
      have e1 : idx (x :: y :: rest) 1 = some y := idx_of_lt (x :: y :: rest) 1 (by simp)
      unfold eqAt
      rw [e0, e1]
      by_cases hx : x = 0xff <;> by_cases hy : y = 0xd8 <;> simp [goAnd, hx, hy, hw]
  · rw [boundaryCheck_last_wrong _ _ hl hw]
    simp [hw]

/-- The boundary law on payloads of two bytes or more: a bucket whose first
payload does not start with `FF D8`, or whose last payload does not end with
`FF D9`, is dropped without a panic. -/
theorem reassembleSorted_rejects (imageChunks : List StreamPacket) (first last : StreamPacket)
    (hfirst : imageChunks.head? = some first) (hlast : imageChunks.getLast? = some last)
    (hf : 2 ≤ first.Payload.length) (hl : 2 ≤ last.Payload.length)
    (h : first.Payload.take 2 ≠ [0xff, 0xd8] ∨
      last.Payload.drop (last.Payload.length - 2) ≠ [0xff, 0xd9]) :
    reassembleSorted imageChunks = .nothing := by
  unfold reassembleSorted
  rw [idx_zero_eq_head?, idx_last_eq_getLast?, hfirst, hlast]
  have hb : boundaryCheck first.Payload last.Payload = some false := by
    rw [boundaryCheck_of_two _ _ hf hl]
    simp only [Option.some.injEq, decide_eq_false_iff_not]
    rintro ⟨h1, h2⟩
    rcases h with h | h
    · exact h h1
    · exact h h2
  simp only [hb]

/-! ## The claims -/

/-- Every `sort.Slice` puts the three records of scenario A, in whatever order
they arrived, into the order of their chunk indices. -/
theorem scenarioA_sorted (sort : SortPkg) (bucket : List StreamPacket)
    (h : bucket.Perm [chunk0, chunk1, chunk2]) :
    sort.Slice chunkLess bucket = [chunk0, chunk1, chunk2] :=
  sort.Slice_eq_of_perm chunkLess chunkLess_ok _ _ h (by decide)

/-- C1 (the code on scenarios A and B): with the records 0, 1, 2 the image sent
is the payload of chunk 1 alone, and with chunk 1 missing it is the 1400 zero
bytes alone.  The loop of line 96 runs while `i < totalChunks`, so the segment
of position `totalChunks` (the payload of chunk 2) is not appended; the data
are not the concatenation over the positions 1, ..., N that the claim states. -/
theorem scenarios_drop_last_chunk (sort : SortPkg) :
    reassemble sort [chunk0, chunk1, chunk2] = .sent ⟨chunk1.Payload, chunk0.Time⟩ ∧
    reassemble sort [chunk0, chunk1, chunk2] ≠
      .sent ⟨chunk1.Payload ++ chunk2.Payload, chunk0.Time⟩ ∧
    reassemble sort [chunk0, chunk2] = .sent ⟨emptyBuf, chunk0.Time⟩ ∧
    reassemble sort [chunk0, chunk2] ≠ .sent ⟨emptyBuf ++ chunk2.Payload, chunk0.Time⟩ := by
  have hA : reassemble sort [chunk0, chunk1, chunk2] = .sent ⟨chunk1.Payload, chunk0.Time⟩ := by
    unfold reassemble
    rw [scenarioA_sorted sort _ (List.Perm.refl _)]
    decide
  have hB : reassemble sort [chunk0, chunk2] = .sent ⟨emptyBuf, chunk0.Time⟩ := by
    unfold reassemble
    rw [sort.Slice_eq_of_perm chunkLess chunkLess_ok _ _ (List.Perm.refl _) (by decide),
      reassembleSorted_of_check [chunk0, chunk2] chunk0 chunk2 rfl rfl (by decide)]
    have e : ((List.Ico 1 chunk2.ChunkIndex.val).map (segment [chunk0, chunk2])).flatten
        = emptyBuf := by
      have e1 : List.Ico 1 chunk2.ChunkIndex.val = [1] := by decide
      have e2 : segment [chunk0, chunk2] 1 = emptyBuf := rfl
      rw [e1, List.map_cons, List.map_nil, List.flatten_cons, List.flatten_nil,
        List.append_nil, e2]
    have hlen : 4 ≤ emptyBuf.length := by
      unfold emptyBuf
      rw [List.length_replicate]
      omega
    rw [e, if_pos hlen]
  refine ⟨hA, ?_, hB, ?_⟩
  · rw [hA]
    decide
  · rw [hB]
    intro h
    have h1 : emptyBuf = emptyBuf ++ chunk2.Payload :=
      congrArg VideoFrame.JpegData (Outcome.sent.inj h)
    have h2 := congrArg List.length h1
    rw [List.length_append] at h2
    have h3 : chunk2.Payload.length = 4 := rfl
    omega

/-- C2 (the code on the failing inputs): on the empty payload and on the
one-byte payload `99` the classification panics with an index out of range,
because line 57 reads `data[0]` and `data[1]` before it looks at `len(data)`;
the claim states that these payloads are skipped without failure. -/
theorem classify_panics_on_short_payload (ts : Time) :
    classify [] ts = .panic ∧ classify [99] ts = .panic :=
  ⟨rfl, rfl⟩

/-- C3: a payload `d` of at least 55 bytes with `d[0] = d[1] = 99` is classified
as the record with `ID = d[8]*2^24 + d[9]*2^16 + d[12]*2^8 + d[13]` (a value
below `2^32`), `ChunkIndex = d[48]`, `UnknownValue = d[50]`, `Payload` the bytes
of `d` from offset 54 on, `PacketSize = len(d)` and `Time` the timestamp of the
frame. -/
theorem classify_wellFormed (d : List Byte) (ts : Time) (hlen : 55 ≤ d.length)
    (h0 : d[0] = 99) (h1 : d[1] = 99) :
    classify d ts = .sent
      { ID := d[8].val * 2 ^ 24 + d[9].val * 2 ^ 16 + d[12].val * 2 ^ 8 + d[13].val
        ChunkIndex := d[48]
        UnknownValue := d[50]
        PacketSize := d.length
        Payload := d.drop 54
        Time := ts } ∧
    d[8].val * 2 ^ 24 + d[9].val * 2 ^ 16 + d[12].val * 2 ^ 8 + d[13].val < 2 ^ 32 := by
  refine ⟨classify_of_marker d ts hlen h0 h1, ?_⟩
  have h8 := d[8].isLt
  have h9 := d[9].isLt
  have h12 := d[12].isLt
  have h13 := d[13].isLt
  omega

/-- C3 on `samplePayload`, whose byte at offset `i` is `i` from offset 2 on. -/
theorem classify_wellFormed_witness :
    classify samplePayload t0 = .sent
      { ID := 8 * 2 ^ 24 + 9 * 2 ^ 16 + 12 * 2 ^ 8 + 13
        ChunkIndex := 48
        UnknownValue := 50
        PacketSize := 56
        Payload := [54, 55]
        Time := t0 } ∧
    8 * 2 ^ 24 + 9 * 2 ^ 16 + 12 * 2 ^ 8 + 13 < 2 ^ 32 :=
  classify_wellFormed samplePayload t0 (by decide) (by decide) (by decide)

/-- C4: the keys of the map built by the grouping loop are pairwise distinct;
every stream ID that occurs in the input is mapped to exactly the input records
with that ID, in arrival order; every bucket of the map is of this form (so it
holds input records only); and an input record lies in a bucket exactly when
the bucket is the one keyed by its own ID. -/
theorem group_spec (packets : List StreamPacket) :
    ((group packets).map Prod.fst).Nodup ∧
    (∀ id : Nat, (∃ p ∈ packets, p.ID = id) →
      Buckets.get (group packets) id = some (packets.filter (fun p => decide (p.ID = id)))) ∧
    (∀ (id : Nat) (bucket : List StreamPacket), (id, bucket) ∈ group packets →
      (∃ p ∈ packets, p.ID = id) ∧ bucket = packets.filter (fun p => decide (p.ID = id))) ∧
    (∀ p ∈ packets, ∀ (id : Nat) (bucket : List StreamPacket), (id, bucket) ∈ group packets →
      (p ∈ bucket ↔ id = p.ID)) := by
  have hnd := group_keys_nodup packets
  have key : ∀ (id : Nat) (bucket : List StreamPacket), (id, bucket) ∈ group packets →
      (∃ p ∈ packets, p.ID = id) ∧ bucket = packets.filter (fun p => decide (p.ID = id)) := by
    intro id bucket hmem
    rw [Buckets.mem_iff_get _ hnd, group_get] at hmem
    split at hmem
    · exact absurd hmem (by simp)
    · rename_i hne
      simp only [Option.some.injEq] at hmem
      refine ⟨?_, hmem.symm⟩
      obtain ⟨q, hq⟩ := List.exists_mem_of_ne_nil _ hne
      rw [List.mem_filter] at hq
      exact ⟨q, hq.1, by simpa using hq.2⟩
  refine ⟨hnd, ?_, key, ?_⟩
  · rintro id ⟨p, hp, hid⟩
    rw [group_get, if_neg]
    intro hnil
    have : p ∈ packets.filter (fun p => decide (p.ID = id)) := by
      rw [List.mem_filter]; exact ⟨hp, by simpa using hid⟩
    rw [hnil] at this
    exact absurd this (List.not_mem_nil p)
  · intro p hp id bucket hmem
    obtain ⟨_, hb⟩ := key id bucket hmem
    rw [hb, List.mem_filter]
    constructor
    · intro h
      exact (by simpa using h.2 : p.ID = id).symm
    · intro h
      exact ⟨hp, by simpa using h.symm⟩

/-- C5 (the code on the failing input): `tinyDatagram`, 54 header bytes and one
payload byte, is classified as `tinyRecord`; on the bucket made of this record,
whose payload neither starts with `FF D8` nor ends with `FF D9`, line 93 reads
`lastChunk[len(lastChunk)-2]`, that is `lastChunk[-1]`, and the program panics.
The claim states that such a bucket is dropped with no error raised. -/
theorem reassemble_panics_on_one_byte_payload (sort : SortPkg) :
    classify tinyDatagram t0 = .sent tinyRecord ∧ reassemble sort [tinyRecord] = .panic := by
  refine ⟨by decide, ?_⟩
  unfold reassemble
  rw [sort.Slice_eq_of_perm chunkLess chunkLess_ok _ _ (List.Perm.refl _) (by decide)]
  decide

/-- C6 (the code on the failing inputs): `soleDatagram` is classified as
`soleChunk`; the bucket made of this one chunk with index 0 passes the
condition of line 93, and so does the bucket of the chunks 0 and 1; in both the
loop of line 96 appends nothing, and the debug print of line 109 reads
`imageData[0]` of an empty buffer: the program panics where the claim states
that one image is emitted. -/
theorem reassemble_panics_on_short_image (sort : SortPkg) :
    classify soleDatagram t0 = .sent soleChunk ∧
    boundaryCheck soleChunk.Payload soleChunk.Payload = some true ∧
    reassemble sort [soleChunk] = .panic ∧
    boundaryCheck chunk0.Payload endChunk1.Payload = some true ∧
    reassemble sort [chunk0, endChunk1] = .panic := by
  refine ⟨by decide, by decide, ?_, by decide, ?_⟩
  · unfold reassemble
    rw [sort.Slice_eq_of_perm chunkLess chunkLess_ok _ _ (List.Perm.refl _) (by decide)]
    decide
  · unfold reassemble
    rw [sort.Slice_eq_of_perm chunkLess chunkLess_ok _ _ (List.Perm.refl _) (by decide)]
    decide

/-- C7 (the code on the failing input): the image sent for the records 0, 1, 2
of scenario A does not begin with `FF D8`.  The loop of line 96 starts at
`i := 1`, so the payload of chunk 0, the one line 93 has checked for the
marker, is not part of the data. -/
theorem scenarioA_data_lacks_start_marker (sort : SortPkg) :
    ∃ img, reassemble sort [chunk0, chunk1, chunk2] = .sent img ∧
      img.JpegData.take 2 ≠ [0xff, 0xd8] := by
  refine ⟨⟨chunk1.Payload, chunk0.Time⟩, ?_, by decide⟩
  unfold reassemble
  rw [scenarioA_sorted sort _ (List.Perm.refl _)]
  decide

/-- C8: the sequencer returns a rearrangement of its input (no image lost or
duplicated) in which the timestamps, truncated to whole Unix seconds, are in
non-decreasing order. -/
theorem sequence_sorted_perm (sort : SortPkg) (imageFrames : List VideoFrame) :
    (sequence sort imageFrames).Perm imageFrames ∧
    (sequence sort imageFrames).Pairwise (fun a b => a.Time.Unix ≤ b.Time.Unix) := by
  refine ⟨sort.perm frameLess imageFrames, ?_⟩
  refine (sort.sorted frameLess frameLess_ok imageFrames).imp ?_
  intro a b h
  simpa [frameLess] using h

/-! ### Go's `sort.Slice` and the order of images of one second -/

theorem goSort_Slice {α : Type} (longer : SortPkg) (less : α → α → Bool) (x : List α) :
    (goSort longer).Slice less x = goSlice longer less x := rfl

/-- On slices of at most 13 elements `goSlice` does not consult its parameter. -/
theorem goSlice_of_le_13 {α : Type} (longer longer2 : SortPkg) (less : α → α → Bool)
    (x : List α) (h : x.length ≤ 13) : goSlice longer less x = goSlice longer2 less x := by
  unfold goSlice
  rw [if_pos h, if_pos h]

theorem filter_siftLeft {α : Type} (less : α → α → Bool) (key : α → Int)
    (hless : ∀ a b, less a b = true → key a ≠ key b) (s : Int) (x : α) (rev : List α) :
    (siftLeft less x rev).filter (fun f => decide (key f = s)) =
      (x :: rev).filter (fun f => decide (key f = s)) := by
  induction rev with
  | nil => rfl
  | cons y before ih =>
    unfold siftLeft
    split
    · rename_i hxy
      have hne := hless x y hxy
      rw [List.filter_cons, ih]
      by_cases hy : key y = s
      · have hx : ¬ key x = s := fun hx => hne (hx.trans hy.symm)
        simp [List.filter_cons, hy, hx]
      · simp [List.filter_cons, hy]
    · rfl

theorem filter_foldl_siftLeft {α : Type} (less : α → α → Bool) (key : α → Int)
    (hless : ∀ a b, less a b = true → key a ≠ key b) (s : Int) (data acc : List α) :
    (data.foldl (fun sortedRev x => siftLeft less x sortedRev) acc).filter
        (fun f => decide (key f = s)) =
      (data.reverse ++ acc).filter (fun f => decide (key f = s)) := by
  induction data generalizing acc with
  | nil => simp
  | cons x rest ih =>
    rw [List.foldl_cons, ih, List.reverse_cons, List.append_assoc, List.filter_append,
      List.filter_append, filter_siftLeft less key hless]
    rfl

theorem insertionSortFunc_stable {α : Type} (less : α → α → Bool) (key : α → Int)
    (hless : ∀ a b, less a b = true → key a ≠ key b) (s : Int) (data : List α) :
    (insertionSortFunc less data).filter (fun f => decide (key f = s)) =
      data.filter (fun f => decide (key f = s)) := by
  unfold insertionSortFunc
  rw [List.filter_reverse, filter_foldl_siftLeft less key hless, List.append_nil,
    List.filter_reverse, List.reverse_reverse]

theorem frameLess_separates (a b : VideoFrame) (h : frameLess a b = true) :
    a.Time.Unix ≠ b.Time.Unix := by
  simp only [frameLess, decide_eq_true_eq] at h
  omega

/-- C9, as stated, fails on the thirteen images of `frames13` with Go's
`sort.Slice`: the pivot is the image at index 6 (no swap is counted, but the
slice has a descent at index 1), `partition_func` begins with
`data.Swap(0, 6)`, nothing is less than the pivot, so `mid` is 0 and the other
twelve are sorted by insertion.  The image at index 6 comes out first, before
the images at the indices 1 to 5, which are of the same second and came before
it: the images of second 10 are not in their input order.  (On 13 elements the
parameter of `goSort` is not consulted, see `goSlice_of_le_13`.) -/
theorem sequence_not_stable :
    sequence (goSort stableSort) frames13 =
      [⟨[6], ⟨10, 6⟩⟩, ⟨[1], ⟨10, 1⟩⟩, ⟨[2], ⟨10, 2⟩⟩, ⟨[3], ⟨10, 3⟩⟩, ⟨[4], ⟨10, 4⟩⟩,
       ⟨[5], ⟨10, 5⟩⟩, ⟨[7], ⟨10, 7⟩⟩, ⟨[8], ⟨10, 8⟩⟩, ⟨[9], ⟨10, 9⟩⟩, ⟨[10], ⟨10, 10⟩⟩,
       ⟨[11], ⟨10, 11⟩⟩, ⟨[12], ⟨10, 12⟩⟩, ⟨[0], ⟨11, 0⟩⟩] ∧
    (sequence (goSort stableSort) frames13).filter (fun f => decide (f.Time.Unix = 10)) ≠
      frames13.filter (fun f => decide (f.Time.Unix = 10)) := by
  decide

/-- C9, amended: on an input list of at most 12 images the sequencer is stable
(Go's `sort.Slice` sorts such a slice by insertion): for every Unix second `s`,
the images of second `s` appear in the output in the order they have in the
input. -/
theorem sequence_stable_upto_12 (longer : SortPkg) (imageFrames : List VideoFrame)
    (h : imageFrames.length ≤ 12) (s : Int) :
    (sequence (goSort longer) imageFrames).filter (fun f => decide (f.Time.Unix = s)) =
      imageFrames.filter (fun f => decide (f.Time.Unix = s)) := by
  unfold sequence
  rw [goSort_Slice]
  unfold goSlice
  rw [if_pos h]
  exact insertionSortFunc_stable frameLess (fun f => f.Time.Unix) frameLess_separates s
    imageFrames

/-- C9, amended, on four images of which the second and the third are of
second 10. -/
theorem sequence_stable_upto_12_witness :
    [⟨[0], ⟨11, 0⟩⟩, frameA, frameB, ⟨[3], ⟨9, 0⟩⟩].length ≤ 12 ∧
    sequence (goSort stableSort) [⟨[0], ⟨11, 0⟩⟩, frameA, frameB, ⟨[3], ⟨9, 0⟩⟩]
      = [⟨[3], ⟨9, 0⟩⟩, frameA, frameB, ⟨[0], ⟨11, 0⟩⟩] ∧
    (sequence (goSort stableSort) [⟨[0], ⟨11, 0⟩⟩, frameA, frameB, ⟨[3], ⟨9, 0⟩⟩]).filter
        (fun f => decide (f.Time.Unix = 10))
      = [⟨[0], ⟨11, 0⟩⟩, frameA, frameB, ⟨[3], ⟨9, 0⟩⟩].filter
        (fun f => decide (f.Time.Unix = 10)) :=
  ⟨by decide, by decide,
    sequence_stable_upto_12 stableSort [⟨[0], ⟨11, 0⟩⟩, frameA, frameB, ⟨[3], ⟨9, 0⟩⟩]
      (by decide) 10⟩

/-- C10: the timestamp of an emitted image is that of a record of the bucket
whose chunk index is the smallest of the bucket; when exactly one record of the
bucket has chunk index 0, it is the timestamp of that record. -/
theorem reassemble_time (sort : SortPkg) (bucket : List StreamPacket) (img : VideoFrame)
    (h : reassemble sort bucket = .sent img) :
    (∃ r ∈ bucket, (∀ q ∈ bucket, r.ChunkIndex ≤ q.ChunkIndex) ∧ img.Time = r.Time) ∧
    (∀ r0, bucket.filter (fun r => decide (r.ChunkIndex = 0)) = [r0] → img.Time = r0.Time) := by
  obtain ⟨first, last, hmem, -, hminmax, -, -, -, htime⟩ := reassemble_sent sort bucket img h
  have hmin : ∀ q ∈ bucket, first.ChunkIndex ≤ q.ChunkIndex := fun q hq => (hminmax q hq).1
  refine ⟨⟨first, hmem, hmin, htime⟩, ?_⟩
  intro r0 hr0
  have h0 : r0 ∈ bucket.filter (fun r => decide (r.ChunkIndex = 0)) := by
    rw [hr0]; exact List.mem_singleton_self r0
  rw [List.mem_filter] at h0
  have hr0z : r0.ChunkIndex = 0 := by simpa using h0.2
  have hfz : first.ChunkIndex = 0 := by
    have := hmin r0 h0.1
    rw [hr0z] at this
    exact Fin.le_zero_iff.1 this
  have hf : first ∈ bucket.filter (fun r => decide (r.ChunkIndex = 0)) := by
    rw [List.mem_filter]; exact ⟨hmem, by simpa using hfz⟩
  rw [hr0, List.mem_singleton] at hf
  rw [htime, hf]

/-- C10 on the bucket of scenario A, arrived in the order 2, 0, 1. -/
theorem reassemble_time_witness :
    reassemble stableSort [chunk2, chunk0, chunk1] = .sent ⟨[3, 4, 5, 6], t0⟩ ∧
    ((∃ r ∈ [chunk2, chunk0, chunk1],
        (∀ q ∈ [chunk2, chunk0, chunk1], r.ChunkIndex ≤ q.ChunkIndex) ∧ t0 = r.Time) ∧
      (∀ r0, [chunk2, chunk0, chunk1].filter (fun r => decide (r.ChunkIndex = 0)) = [r0] →
        t0 = r0.Time)) :=
  ⟨by decide, reassemble_time stableSort [chunk2, chunk0, chunk1] ⟨[3, 4, 5, 6], t0⟩ (by decide)⟩

/-! ## Further lemmas and the claims C11 to C17 -/

/-! ### More on the classification and the grouping -/

/-- A record is made only from a payload of 55 bytes or more, and its payload
is what follows the 54 header bytes. -/
theorem classify_sent (data : List Byte) (ts : Time) (p : StreamPacket)
    (h : classify data ts = .sent p) :
    55 ≤ data.length ∧ p.Payload = data.drop 54 ∧ p.PacketSize = data.length ∧ p.Time = ts := by
  match data with
  | [] => exact absurd h (by rw [(classify_panic_iff [] ts).2 (Or.inl rfl)]; simp)
  | [x] =>
    by_cases hx : x = 99
    · subst hx
      exact absurd h (by rw [(classify_panic_iff [99] ts).2 (Or.inr rfl)]; simp)
    · unfold classify at h
      rw [isStreamPacket_singleton, if_neg hx] at h
      exact absurd h (by simp)
  | x :: y :: rest =>
    by_cases hd : x = 99 ∧ y = 99 ∧ 54 < (x :: y :: rest).length
    · have hw := classify_of_marker (x :: y :: rest) ts (by omega)
        (by simpa using hd.1) (by simpa using hd.2.1)
      rw [hw] at h
      have hp := Outcome.sent.inj h
      subst hp
      exact ⟨by omega, rfl, rfl, rfl⟩
    · unfold classify at h
      rw [isStreamPacket_cons_cons, decide_eq_false hd] at h
      exact absurd h (by simp)

/-- The buckets of the map are the input filtered by a stream ID that occurs
in it. -/
theorem group_mem (packets : List StreamPacket) (id : Nat) (bucket : List StreamPacket)
    (hmem : (id, bucket) ∈ group packets) :
    bucket = packets.filter (fun p => decide (p.ID = id)) ∧ bucket ≠ [] := by
  rw [Buckets.mem_iff_get _ (group_keys_nodup packets), group_get] at hmem
  split at hmem
  · exact absurd hmem (by simp)
  · rename_i hne
    simp only [Option.some.injEq] at hmem
    exact ⟨hmem.symm, by rw [← hmem]; exact hne⟩

/-- C13: every record the classification makes has a payload of exactly the
input length minus 54 bytes, which is at least one byte. -/
theorem classify_payload_length (data : List Byte) (ts : Time) (p : StreamPacket)
    (h : classify data ts = .sent p) :
    p.Payload.length = data.length - 54 ∧ 1 ≤ p.Payload.length := by
  obtain ⟨hlen, hp, -, -⟩ := classify_sent data ts p h
  rw [hp, List.length_drop]
  omega

/-- C13 on `samplePayload`: 56 bytes give a payload of 2 bytes. -/
theorem classify_payload_length_witness :
    classify samplePayload t0 = .sent ⟨8 * 2 ^ 24 + 9 * 2 ^ 16 + 12 * 2 ^ 8 + 13, 48, 50, 56,
      [54, 55], t0⟩ ∧
    (([54, 55] : List Byte).length = samplePayload.length - 54 ∧
      1 ≤ ([54, 55] : List Byte).length) :=
  ⟨by decide, classify_payload_length samplePayload t0
    ⟨8 * 2 ^ 24 + 9 * 2 ^ 16 + 12 * 2 ^ 8 + 13, 48, 50, 56, [54, 55], t0⟩ (by decide)⟩

/-- C16: every bucket of the map built by the grouping loop is non-empty, and
so is the slice after the sort of lines 87-89: the index expressions
`imageChunks[0]` and `imageChunks[len(imageChunks)-1]` of lines 90-92 are in
range, for every `sort.Slice`. -/
theorem group_buckets_nonempty (packets : List StreamPacket) (id : Nat)
    (bucket : List StreamPacket) (hmem : (id, bucket) ∈ group packets) (sort : SortPkg) :
    bucket ≠ [] ∧
    (∃ first, idx (sort.Slice chunkLess bucket) 0 = some first) ∧
    (∃ last, idx (sort.Slice chunkLess bucket)
      (((sort.Slice chunkLess bucket).length : Int) - 1) = some last) := by
  obtain ⟨-, hne⟩ := group_mem packets id bucket hmem
  have hlen : (sort.Slice chunkLess bucket).length = bucket.length :=
    (sort.perm chunkLess bucket).length_eq
  have hpos : 0 < bucket.length := List.length_pos.2 hne
  refine ⟨hne, ?_, ?_⟩
  · exact idx_some_of_range _ 0 (le_refl _) (by omega)
  · exact idx_some_of_range _ _ (by omega) (by omega)

/-- C16 on the records 0, 2, 1 of scenario A and a record of stream 0. -/
theorem group_buckets_nonempty_witness :
    (1, [chunk0, chunk2, chunk1]) ∈ group [chunk0, tinyRecord, chunk2, chunk1] ∧
    ([chunk0, chunk2, chunk1] ≠ [] ∧
      (∃ first, idx (stableSort.Slice chunkLess [chunk0, chunk2, chunk1]) 0 = some first) ∧
      (∃ last, idx (stableSort.Slice chunkLess [chunk0, chunk2, chunk1])
        (((stableSort.Slice chunkLess [chunk0, chunk2, chunk1]).length : Int) - 1)
          = some last)) :=
  ⟨by decide, group_buckets_nonempty [chunk0, tinyRecord, chunk2, chunk1] 1
    [chunk0, chunk2, chunk1] (by decide) stableSort⟩

/-! ### Buckets with pairwise distinct chunk indices -/

/-- With pairwise distinct chunk indices the sorted slice is strictly
increasing. -/
theorem sortedChunks_strict (sort : SortPkg) (bucket : List StreamPacket)
    (hnd : (bucket.map (fun r => r.ChunkIndex)).Nodup) :
    (sort.Slice chunkLess bucket).Pairwise (fun a b => chunkLess a b = true) := by
  have hperm := sort.perm chunkLess bucket
  have h1 := sortedChunks_pairwise sort bucket
  have h2 : ((sort.Slice chunkLess bucket).map (fun r => r.ChunkIndex)).Nodup :=
    ((hperm.map _).nodup_iff).2 hnd
  have h3 : (sort.Slice chunkLess bucket).Pairwise (fun a b => a.ChunkIndex ≠ b.ChunkIndex) :=
    List.pairwise_map.1 h2
  refine (h1.and h3).imp ?_
  intro a b h
  simp only [chunkLess, decide_eq_true_eq]
  exact lt_of_le_of_ne h.1 h.2

/-- With pairwise distinct chunk indices the sorted slice depends neither on the
arrival order nor on the `sort.Slice`. -/
theorem sortedChunks_eq_of_perm (sort sort2 : SortPkg) (bucket bucket2 : List StreamPacket)
    (hp : bucket.Perm bucket2) (hnd : (bucket.map (fun r => r.ChunkIndex)).Nodup) :
    sort.Slice chunkLess bucket = sort2.Slice chunkLess bucket2 := by
  have hnd2 : (bucket2.map (fun r => r.ChunkIndex)).Nodup := ((hp.map _).nodup_iff).1 hnd
  exact sort.Slice_eq_of_perm chunkLess chunkLess_ok _ _
    (hp.trans (sort2.perm chunkLess bucket2).symm) (sortedChunks_strict sort2 bucket2 hnd2)

/-- C12: for two record lists that are permutations of each other and whose
chunk indices are pairwise distinct, the loop body has the same outcome: both
panic, both are dropped, or both send the same image (same data, same
timestamp). -/
theorem reassemble_perm (sort : SortPkg) (bucket bucket2 : List StreamPacket)
    (hp : bucket.Perm bucket2) (hnd : (bucket.map (fun r => r.ChunkIndex)).Nodup) :
    reassemble sort bucket = reassemble sort bucket2 := by
  unfold reassemble
  rw [sortedChunks_eq_of_perm sort sort bucket bucket2 hp hnd]

/-- C12 on scenario A: the arrival orders 2, 0, 1 and 0, 1, 2. -/
theorem reassemble_perm_witness :
    reassemble stableSort [chunk2, chunk0, chunk1] = reassemble stableSort [chunk0, chunk1, chunk2] ∧
    reassemble stableSort [chunk0, chunk1, chunk2] = .sent ⟨[3, 4, 5, 6], t0⟩ :=
  ⟨reassemble_perm stableSort [chunk2, chunk0, chunk1] [chunk0, chunk1, chunk2]
    (by decide) (by decide), by decide⟩

/-! ### One-byte payloads and the condition of line 93 -/

/-- A bucket whose last record after the sort has a payload shorter than two
bytes makes the program panic at `lastChunk[len(lastChunk)-2]`. -/
theorem reassembleSorted_panics_of_last_short (imageChunks : List StreamPacket)
    (first last : StreamPacket) (hfirst : imageChunks.head? = some first)
    (hlast : imageChunks.getLast? = some last) (hshort : last.Payload.length < 2) :
    reassembleSorted imageChunks = .panic := by
  unfold reassembleSorted
  rw [idx_zero_eq_head?, idx_last_eq_getLast?, hfirst, hlast]
  simp only [boundaryCheck_last_short first.Payload last.Payload hshort]

/-- Every non-empty bucket in which the records of the largest chunk index have
payloads shorter than two bytes makes the program panic. -/
theorem reassemble_panics_of_last_short (sort : SortPkg) (bucket : List StreamPacket)
    (hne : bucket ≠ [])
    (hshort : ∀ r ∈ bucket, (∀ q ∈ bucket, q.ChunkIndex ≤ r.ChunkIndex) →
      r.Payload.length < 2) :
    reassemble sort bucket = .panic := by
  have hlen : (sort.Slice chunkLess bucket).length = bucket.length :=
    (sort.perm chunkLess bucket).length_eq
  have hpos : 0 < bucket.length := List.length_pos.2 hne
  obtain ⟨first, hfirst⟩ := idx_some_of_range (sort.Slice chunkLess bucket) 0 (le_refl _)
    (by omega)
  obtain ⟨last, hlast⟩ := idx_some_of_range (sort.Slice chunkLess bucket)
    (((sort.Slice chunkLess bucket).length : Int) - 1) (by omega) (by omega)
  rw [idx_zero_eq_head?] at hfirst
  rw [idx_last_eq_getLast?] at hlast
  obtain ⟨hl1, hl2⟩ := sortedChunks_last_max sort bucket last hlast
  exact reassembleSorted_panics_of_last_short _ first last hfirst hlast (hshort last hl1 hl2)

/-! ### Accepted buckets -/

/-- What `accepted` says: the sorted slice has a first and a last record, and
they pass the condition of line 93. -/
theorem accepted_iff (sort : SortPkg) (bucket : List StreamPacket) :
    accepted sort bucket = true ↔
      ∃ first last, (sort.Slice chunkLess bucket).head? = some first ∧
        (sort.Slice chunkLess bucket).getLast? = some last ∧
        boundaryCheck first.Payload last.Payload = some true := by
  unfold accepted
  constructor
  · intro h
    split at h
    · rename_i first last hf hl
      exact ⟨first, last, hf, hl, by simpa using h⟩
    · exact absurd h (by simp)
  · rintro ⟨first, last, hf, hl, hb⟩
    rw [hf, hl]
    simp [hb]

/-! ### The gap fill -/

theorem emptyBuf_length : emptyBuf.length = 1400 := by
  unfold emptyBuf
  rw [List.length_replicate]

/-- The segment of a position for which the bucket has no record is the buffer
of 1400 zero bytes. -/
theorem segment_of_missing (sort : SortPkg) (bucket : List StreamPacket) (k : Nat)
    (hmiss : ∀ r ∈ bucket, r.ChunkIndex.val ≠ k) :
    segment (sort.Slice chunkLess bucket) k = emptyBuf := by
  have hperm := sort.perm chunkLess bucket
  have hfind : (sort.Slice chunkLess bucket).find?
      (fun chunk => decide (chunk.ChunkIndex.val = k)) = none := by
    rw [List.find?_eq_none]
    intro r hr
    simpa using hmiss r (hperm.subset hr)
  unfold segment
  rw [hfind]

/-- C11: an accepted bucket (one that passes the condition of line 93) in which
some position `k` with `1 ≤ k ≤ N` (`N` the largest chunk index of the bucket)
has no record sends an image, and in its data the position `k` is a block of
exactly 1400 zero bytes that starts at the byte offset that is the sum of the
lengths of the segments of the positions `1, ..., k - 1` (the payload length
for a position that has a record, 1400 for one that has none). -/
theorem gap_is_zero_block (sort : SortPkg) (bucket : List StreamPacket)
    (hacc : accepted sort bucket = true) (k : Nat) (hk : 1 ≤ k)
    (hkN : ∃ r ∈ bucket, k ≤ r.ChunkIndex.val)
    (hmiss : ∀ r ∈ bucket, r.ChunkIndex.val ≠ k) :
    ∃ img, reassemble sort bucket = .sent img ∧
      (img.JpegData.drop (((List.Ico 1 k).map
          (fun i => (segment (sort.Slice chunkLess bucket) i).length)).sum)).take 1400
        = List.replicate 1400 0 := by
  obtain ⟨first, last, hfirst, hlast, hb⟩ := (accepted_iff sort bucket).1 hacc
  obtain ⟨hl, hmax⟩ := sortedChunks_last_max sort bucket last hlast
  obtain ⟨r, hr, hkr⟩ := hkN
  have hrN : r.ChunkIndex.val ≤ last.ChunkIndex.val := hmax r hr
  have hne : last.ChunkIndex.val ≠ k := hmiss last hl
  have hlt : k < last.ChunkIndex.val := by omega
  have hsplit : List.Ico 1 last.ChunkIndex.val
      = List.Ico 1 k ++ (k :: List.Ico (k + 1) last.ChunkIndex.val) := by
    rw [← List.Ico.eq_cons hlt, List.Ico.append_consecutive hk (le_of_lt hlt)]
  have hoff : (((List.Ico 1 k).map (segment (sort.Slice chunkLess bucket))).flatten).length
      = ((List.Ico 1 k).map
        (fun i => (segment (sort.Slice chunkLess bucket) i).length)).sum := by
    rw [List.length_flatten, List.map_map]
    rfl
  have hdata : ((List.Ico 1 last.ChunkIndex.val).map
        (segment (sort.Slice chunkLess bucket))).flatten
      = ((List.Ico 1 k).map (segment (sort.Slice chunkLess bucket))).flatten ++
        (emptyBuf ++ ((List.Ico (k + 1) last.ChunkIndex.val).map
          (segment (sort.Slice chunkLess bucket))).flatten) := by
    rw [hsplit, List.map_append, List.flatten_append, List.map_cons, List.flatten_cons,
      segment_of_missing sort bucket k hmiss]
  have hlen : 4 ≤ (((List.Ico 1 last.ChunkIndex.val).map
      (segment (sort.Slice chunkLess bucket))).flatten).length := by
    rw [hdata, List.length_append, List.length_append, emptyBuf_length]
    omega
  refine ⟨⟨((List.Ico 1 last.ChunkIndex.val).map
    (segment (sort.Slice chunkLess bucket))).flatten, first.Time⟩, ?_, ?_⟩
  · unfold reassemble
    rw [reassembleSorted_of_check _ first last hfirst hlast hb, if_pos hlen]
  · show (List.drop _ ((List.Ico 1 last.ChunkIndex.val).map
      (segment (sort.Slice chunkLess bucket))).flatten).take 1400 = _
    rw [hdata, List.drop_left' hoff, List.take_left' emptyBuf_length]
    rfl

/-! ### Replacing the payload of chunk 0 -/

theorem withChunk0Payload_ChunkIndex (payload : List Byte) (chunk : StreamPacket) :
    (withChunk0Payload payload chunk).ChunkIndex = chunk.ChunkIndex := by
  unfold withChunk0Payload
  split <;> rfl

theorem withChunk0Payload_Time (payload : List Byte) (chunk : StreamPacket) :
    (withChunk0Payload payload chunk).Time = chunk.Time := by
  unfold withChunk0Payload
  split <;> rfl

theorem withChunk0Payload_of_ne (payload : List Byte) (chunk : StreamPacket)
    (h : chunk.ChunkIndex ≠ 0) : withChunk0Payload payload chunk = chunk := by
  unfold withChunk0Payload
  rw [if_neg h]

/-- With pairwise distinct chunk indices, sorting the bucket with the replaced
payload gives the sorted bucket with the replaced payload. -/
theorem sortedChunks_withChunk0Payload (sort : SortPkg) (bucket : List StreamPacket)
    (payload : List Byte) (hnd : (bucket.map (fun r => r.ChunkIndex)).Nodup) :
    sort.Slice chunkLess (bucket.map (withChunk0Payload payload))
      = (sort.Slice chunkLess bucket).map (withChunk0Payload payload) := by
  refine sort.Slice_eq_of_perm chunkLess chunkLess_ok _ _
    ((sort.perm chunkLess bucket).symm.map _) ?_
  rw [List.pairwise_map]
  refine (sortedChunks_strict sort bucket hnd).imp ?_
  intro a b h
  simpa [chunkLess, withChunk0Payload_ChunkIndex] using h

/-- The segment of a position `i ≥ 1` does not depend on the payload of
chunk 0. -/
theorem segment_withChunk0Payload (imageChunks : List StreamPacket) (payload : List Byte)
    (i : Nat) (hi : 1 ≤ i) :
    segment (imageChunks.map (withChunk0Payload payload)) i = segment imageChunks i := by
  have hcomp : ((fun chunk : StreamPacket => decide (chunk.ChunkIndex.val = i)) ∘
      withChunk0Payload payload) = (fun chunk : StreamPacket => decide (chunk.ChunkIndex.val = i)) := by
    funext c
    simp [withChunk0Payload_ChunkIndex]
  unfold segment
  rw [List.find?_map, hcomp]
  cases hfind : imageChunks.find? (fun chunk => decide (chunk.ChunkIndex.val = i)) with
  | none => rfl
  | some c =>
    have hc := List.find?_some hfind
    simp only [decide_eq_true_eq] at hc
    have hne : c.ChunkIndex ≠ 0 := by
      intro h0
      rw [h0] at hc
      simp at hc
      omega
    simp only [Option.map_some', withChunk0Payload_of_ne payload c hne]

/-- When the condition of line 93 holds, the last payload ends with `FF D9`. -/
theorem boundaryCheck_true_last (firstChunk lastChunk : List Byte)
    (h : boundaryCheck firstChunk lastChunk = some true) :
    lastChunk.drop (lastChunk.length - 2) = [0xff, 0xd9] := by
  by_contra hw
  by_cases hl : 2 ≤ lastChunk.length
  · rw [boundaryCheck_last_wrong _ _ hl hw] at h
    exact absurd h (by simp)
  · rw [boundaryCheck_last_short _ _ (by omega)] at h
    exact absurd h (by simp)

/-- The condition of line 93 holds when the first payload starts with `FF D8`
and the last one ends with `FF D9`. -/
theorem boundaryCheck_of_markers (firstChunk lastChunk : List Byte)
    (hf : firstChunk.take 2 = [0xff, 0xd8])
    (hl : lastChunk.drop (lastChunk.length - 2) = [0xff, 0xd9]) :
    boundaryCheck firstChunk lastChunk = some true := by
  have hf2 : 2 ≤ firstChunk.length := by
    have := congrArg List.length hf
    rw [List.length_take] at this
    simp at this
    omega
  have hl2 : 2 ≤ lastChunk.length := by
    have := congrArg List.length hl
    rw [List.length_drop] at this
    simp at this
    omega
  rw [boundaryCheck_of_two _ _ hf2 hl2]
  simp [hf, hl]

/-- When the condition of line 93 holds, the first payload starts with
`FF D8`. -/
theorem boundaryCheck_true_first (firstChunk lastChunk : List Byte)
    (h : boundaryCheck firstChunk lastChunk = some true) :
    firstChunk.take 2 = [0xff, 0xd8] := by
  have hl := boundaryCheck_true_last _ _ h
  rw [boundaryCheck_last_ok _ _ hl] at h
  match firstChunk with
  | [] => exact absurd h (by simp [eqAt, idx, goAnd])
  | [x] =>
    have e0 : idx [x] 0 = some x := idx_of_lt [x] 0 (by simp)
    have e1 : idx [x] 1 = none := idx_none_of_range [x] 1 (Or.inr (by simp))
    unfold eqAt at h
    rw [e0, e1] at h
    by_cases hx : x = 0xff <;> simp [goAnd, hx] at h
  | x :: y :: rest =>
    have e0 : idx (x :: y :: rest) 0 = some x := idx_of_lt (x :: y :: rest) 0 (by simp)
    have e1 : idx (x :: y :: rest) 1 = some y := idx_of_lt (x :: y :: rest) 1 (by simp)
    unfold eqAt at h
    rw [e0, e1] at h
    by_cases hx : x = 0xff <;> by_cases hy : y = 0xd8 <;> simp [goAnd, hx, hy] at h ⊢

/-- C15: the payload of chunk 0 is not written to the output.  For an accepted
bucket (one that passes the condition of line 93) with pairwise distinct chunk
indices and a largest chunk index of at least 1, putting any other payload that
starts with `FF D8` in the place of the payload of the chunk with index 0
leaves the outcome as it is: the same image, with the same data and time, is
sent (or, when the buffer is shorter than four bytes, the same panic occurs).
That the bucket has a chunk with index 0 is not needed. -/
theorem chunk0_payload_not_written (sort : SortPkg) (bucket : List StreamPacket)
    (payload : List Byte) (hnd : (bucket.map (fun r => r.ChunkIndex)).Nodup)
    (hacc : accepted sort bucket = true) (hN : ∃ r ∈ bucket, 1 ≤ r.ChunkIndex.val)
    (hp : payload.take 2 = [0xff, 0xd8]) :
    reassemble sort (bucket.map (withChunk0Payload payload)) = reassemble sort bucket := by
  obtain ⟨first, last, hfirst, hlast, hb⟩ := (accepted_iff sort bucket).1 hacc
  obtain ⟨-, hmax⟩ := sortedChunks_last_max sort bucket last hlast
  obtain ⟨r, hr, hr1⟩ := hN
  have hlast1 : last.ChunkIndex ≠ 0 := by
    intro h0
    have := hmax r hr
    rw [h0] at this
    have h2 := Fin.le_zero_iff.1 this
    rw [h2] at hr1
    simp at hr1
  have hflast : withChunk0Payload payload last = last :=
    withChunk0Payload_of_ne payload last hlast1
  have hb2 : boundaryCheck (withChunk0Payload payload first).Payload last.Payload
      = some true := by
    refine boundaryCheck_of_markers _ _ ?_ (boundaryCheck_true_last _ _ hb)
    unfold withChunk0Payload
    split
    · exact hp
    · exact boundaryCheck_true_first _ _ hb
  have hsegs : (List.Ico 1 last.ChunkIndex.val).map
      (segment ((sort.Slice chunkLess bucket).map (withChunk0Payload payload)))
      = (List.Ico 1 last.ChunkIndex.val).map (segment (sort.Slice chunkLess bucket)) := by
    refine List.map_congr_left ?_
    intro i hi
    exact segment_withChunk0Payload _ payload i (List.Ico.mem.1 hi).1
  unfold reassemble
  rw [sortedChunks_withChunk0Payload sort bucket payload hnd,
    reassembleSorted_of_check (sort.Slice chunkLess bucket) first last hfirst hlast hb,
    reassembleSorted_of_check ((sort.Slice chunkLess bucket).map (withChunk0Payload payload))
      (withChunk0Payload payload first) last (by rw [List.head?_map, hfirst]; rfl)
      (by rw [List.getLast?_map, hlast, Option.map_some', hflast]) hb2,
    hsegs, withChunk0Payload_Time]

/-- C15 on scenario A, arrived in the order 2, 0, 1, with the payload
`FF D8 09 09 09` in the place of that of chunk 0. -/
theorem chunk0_payload_not_written_witness :
    reassemble stableSort
        ([chunk2, chunk0, chunk1].map (withChunk0Payload [0xff, 0xd8, 9, 9, 9]))
      = reassemble stableSort [chunk2, chunk0, chunk1] ∧
    reassemble stableSort [chunk2, chunk0, chunk1] = .sent ⟨[3, 4, 5, 6], t0⟩ ∧
    [chunk2, chunk0, chunk1].map (withChunk0Payload [0xff, 0xd8, 9, 9, 9])
      = [chunk2, ⟨1, 0, 0, 58, [0xff, 0xd8, 9, 9, 9], t0⟩, chunk1] :=
  ⟨chunk0_payload_not_written stableSort [chunk2, chunk0, chunk1] [0xff, 0xd8, 9, 9, 9]
    (by decide) (by decide) ⟨chunk1, by decide, by decide⟩ (by decide), by decide, by decide⟩

/-- The bucket of the records 0, 1, 3: position 2 is missing, and the image
sent is the payload of chunk 1 followed by 1400 zero bytes. -/
theorem gapScenario_sent (sort : SortPkg) :
    reassemble sort [chunk0, chunk1, chunk3] = .sent ⟨chunk1.Payload ++ emptyBuf, t0⟩ := by
  unfold reassemble
  rw [sort.Slice_eq_of_perm chunkLess chunkLess_ok _ _ (List.Perm.refl _) (by decide),
    reassembleSorted_of_check [chunk0, chunk1, chunk3] chunk0 chunk3 rfl rfl (by decide)]
  have e : ((List.Ico 1 chunk3.ChunkIndex.val).map (segment [chunk0, chunk1, chunk3])).flatten
      = chunk1.Payload ++ emptyBuf := by
    have e1 : List.Ico 1 chunk3.ChunkIndex.val = [1, 2] := by decide
    have e2 : segment [chunk0, chunk1, chunk3] 1 = chunk1.Payload := rfl
    have e3 : segment [chunk0, chunk1, chunk3] 2 = emptyBuf := rfl
    rw [e1, List.map_cons, List.map_cons, List.map_nil, List.flatten_cons, List.flatten_cons,
      List.flatten_nil, List.append_nil, e2, e3]
  have hlen : 4 ≤ (chunk1.Payload ++ emptyBuf).length := by
    rw [List.length_append, emptyBuf_length]
    omega
  rw [e, if_pos hlen]
  rfl

/-- C11 on the bucket of the records 0, 1, 3 and the missing position 2: the
image sent is the payload of chunk 1 and 1400 zero bytes, and the block of
zeros starts at offset 4, the length of the payload of chunk 1. -/
theorem gap_is_zero_block_witness :
    reassemble stableSort [chunk0, chunk1, chunk3] = .sent ⟨chunk1.Payload ++ emptyBuf, t0⟩ ∧
    ((List.Ico 1 2).map
      (fun i => (segment (stableSort.Slice chunkLess [chunk0, chunk1, chunk3]) i).length)).sum
      = 4 ∧
    ∃ img, reassemble stableSort [chunk0, chunk1, chunk3] = .sent img ∧
      (img.JpegData.drop (((List.Ico 1 2).map
          (fun i => (segment (stableSort.Slice chunkLess [chunk0, chunk1, chunk3]) i).length)).sum)
        ).take 1400 = List.replicate 1400 0 :=
  ⟨gapScenario_sent stableSort, by decide,
    gap_is_zero_block stableSort [chunk0, chunk1, chunk3] (by decide) 2 (by decide)
      ⟨chunk3, by decide, by decide⟩ (by decide)⟩

/-- C14 (the code on the failing inputs): `ffDatagram`, 54 header bytes and the
payload byte `FF`, is classified as `ffRecord`.  On the bucket made of this
record line 93 reads `lastChunk[len(lastChunk)-2]`, that is `lastChunk[-1]`;
on the bucket made of it and of a final chunk that ends with `FF D9`, line 93
reads `firstChunk[1]` of a one-byte payload.  In both the condition itself
panics, where the claim states that it evaluates without failure and that the
bucket is dropped with no error raised. -/
theorem boundary_check_panics_on_one_byte_payload (sort : SortPkg) :
    classify ffDatagram t0 = .sent ffRecord ∧
    boundaryCheck ffRecord.Payload ffRecord.Payload = none ∧
    reassemble sort [ffRecord] = .panic ∧
    boundaryCheck ffRecord.Payload endRecord.Payload = none ∧
    reassemble sort [ffRecord, endRecord] = .panic := by
  refine ⟨by decide, by decide, ?_, by decide, ?_⟩
  · exact reassemble_panics_of_last_short sort [ffRecord] (by simp) (by decide)
  · unfold reassemble
    rw [sort.Slice_eq_of_perm chunkLess chunkLess_ok _ _ (List.Perm.refl _) (by decide)]
    decide

/-! ### The loop over the buckets -/

/-- The loop over the buckets panics exactly when one of the buckets does. -/
theorem reassembleAll_eq_none_iff (sort : SortPkg) (visit : List (List StreamPacket)) :
    reassembleAll sort visit = none ↔ ∃ b ∈ visit, reassemble sort b = .panic := by
  induction visit with
  | nil => simp [reassembleAll]
  | cons b rest ih =>
    unfold reassembleAll
    cases hb : reassemble sort b with
    | panic => simp [hb]
    | nothing => simp [hb, ih]
    | sent image => simp [hb, ih]

/-- When no bucket panics, the images sent are those of the buckets that send
one, in the order in which the buckets are visited. -/
theorem reassembleAll_eq_some (sort : SortPkg) (visit : List (List StreamPacket))
    (h : ∀ b ∈ visit, reassemble sort b ≠ .panic) :
    reassembleAll sort visit = some (visit.filterMap (sentImage sort)) := by
  induction visit with
  | nil => rfl
  | cons b rest ih =>
    have ih2 := ih (fun c hc => h c (List.mem_cons_of_mem _ hc))
    have hb0 := h b (List.mem_cons_self _ _)
    unfold reassembleAll
    cases hb : reassemble sort b with
    | panic => exact absurd hb hb0
    | nothing =>
      have e : sentImage sort b = none := by simp [sentImage, hb]
      simp only [ih2, List.filterMap_cons, e]
    | sent image =>
      have e : sentImage sort b = some image := by simp [sentImage, hb]
      simp only [ih2, List.filterMap_cons, e, Option.map_some']

/-- Two visiting orders of the same buckets either both panic or send the same
images, possibly in different orders. -/
theorem reassembleAll_perm (sort : SortPkg) (visit visit2 : List (List StreamPacket))
    (hp : visit.Perm visit2) :
    (reassembleAll sort visit = none ∧ reassembleAll sort visit2 = none) ∨
    ∃ images images2, reassembleAll sort visit = some images ∧
      reassembleAll sort visit2 = some images2 ∧ images.Perm images2 := by
  by_cases hpanic : ∃ b ∈ visit, reassemble sort b = .panic
  · left
    refine ⟨(reassembleAll_eq_none_iff sort visit).2 hpanic, ?_⟩
    obtain ⟨b, hb, hbp⟩ := hpanic
    exact (reassembleAll_eq_none_iff sort visit2).2 ⟨b, hp.subset hb, hbp⟩
  · right
    have h1 : ∀ b ∈ visit, reassemble sort b ≠ .panic := fun b hb hbp => hpanic ⟨b, hb, hbp⟩
    have h2 : ∀ b ∈ visit2, reassemble sort b ≠ .panic :=
      fun b hb hbp => hpanic ⟨b, hp.symm.subset hb, hbp⟩
    exact ⟨_, _, reassembleAll_eq_some sort visit h1, reassembleAll_eq_some sort visit2 h2,
      hp.filterMap _⟩

/-- Images whose timestamps fall in pairwise distinct Unix seconds are put in
one and the same order, whatever order they are received in. -/
theorem sequence_eq_of_perm (sort : SortPkg) (images images2 : List VideoFrame)
    (hp : images.Perm images2) (hnd : (images.map (fun f => f.Time.Unix)).Nodup) :
    sequence sort images = sequence sort images2 := by
  have hperm2 := sort.perm frameLess images2
  have hnd2 : ((sequence sort images2).map (fun f => f.Time.Unix)).Nodup :=
    (((hperm2.trans hp.symm).map _).nodup_iff).2 hnd
  have h1 := sort.sorted frameLess frameLess_ok images2
  have h3 : (sequence sort images2).Pairwise (fun a b => a.Time.Unix ≠ b.Time.Unix) :=
    List.pairwise_map.1 hnd2
  have hstrict : (sequence sort images2).Pairwise (fun a b => frameLess a b = true) := by
    refine (List.Pairwise.and h1 h3).imp ?_
    intro a b h
    have hle : a.Time.Unix ≤ b.Time.Unix := by simpa [frameLess] using h.1
    simp only [frameLess, decide_eq_true_eq]
    exact lt_of_le_of_ne hle h.2
  exact sort.Slice_eq_of_perm frameLess frameLess_ok _ _ (hp.trans hperm2.symm) hstrict

/-- C17: for two visiting orders of the same buckets, when the images sent have
timestamps in pairwise distinct Unix seconds, the sequencer ends with the same
ordered list of images, and so the same numbered files are written; when a
bucket makes the program panic, it does so in both orders. -/
theorem output_order_independent (sort : SortPkg) (visit visit2 : List (List StreamPacket))
    (hp : visit.Perm visit2)
    (hdist : ∀ images, reassembleAll sort visit = some images →
      (images.map (fun f => f.Time.Unix)).Nodup) :
    outputFrames sort visit = outputFrames sort visit2 ∧
    (outputFrames sort visit).map frameFiles = (outputFrames sort visit2).map frameFiles := by
  have hout : outputFrames sort visit = outputFrames sort visit2 := by
    unfold outputFrames
    rcases reassembleAll_perm sort visit visit2 hp with ⟨h1, h2⟩ | ⟨images, images2, h1, h2, h3⟩
    · rw [h1, h2]
    · rw [h1, h2, Option.map_some', Option.map_some',
        sequence_eq_of_perm sort images images2 h3 (hdist images h1)]
  exact ⟨hout, by rw [hout]⟩

/-- C17 on the buckets of scenario A and of `otherStream`, visited in the two
possible orders: the image of `otherStream` (second 0) is frame 0, that of
scenario A (second 10) is frame 1. -/
theorem output_order_independent_witness :
    outputFrames stableSort [[chunk0, chunk1, chunk2], otherStream]
      = some [⟨[9, 9, 9, 9], ⟨0, 0⟩⟩, ⟨[3, 4, 5, 6], t0⟩] ∧
    (outputFrames stableSort [[chunk0, chunk1, chunk2], otherStream]
        = outputFrames stableSort [otherStream, [chunk0, chunk1, chunk2]] ∧
      (outputFrames stableSort [[chunk0, chunk1, chunk2], otherStream]).map frameFiles
        = (outputFrames stableSort [otherStream, [chunk0, chunk1, chunk2]]).map frameFiles) :=
  ⟨by decide,
    output_order_independent stableSort [[chunk0, chunk1, chunk2], otherStream]
      [otherStream, [chunk0, chunk1, chunk2]] (List.Perm.swap _ _ _)
      (fun images h => by
        have e : reassembleAll stableSort [[chunk0, chunk1, chunk2], otherStream]
            = some [⟨[3, 4, 5, 6], t0⟩, ⟨[9, 9, 9, 9], ⟨0, 0⟩⟩] := by decide
        rw [e] at h
        cases h
        decide)⟩

end WlanDroneGrabber
